import Mathlib

/-!
Verification of the page-replacement simulation engine
(`algorithms.py`: `fifo`, `lru`, `optimal`, `second_chance`, `clock`).

Pages are modelled as integers. Each Python function returns a dictionary
`{"faults": n, "steps": [...]}`; we model it as `Option RunResult`, where
`none` stands for an uncaught Python exception (`IndexError` from
`list.pop(0)` / out-of-range indexing, `ValueError` from `list.index`),
which can only happen when `frame_size = 0`.
-/

namespace PageRepl

abbrev Page := Int

/-- One step record, as built by the Python loop body
(`{"page": ..., "frames_before": ..., "frames_after": ..., "page_fault": ...}`). -/
structure Step where
  page : Page
  frames_before : List Page
  frames_after : List Page
  page_fault : Bool
deriving DecidableEq, Repr

/-- The run result dictionary `{"faults": ..., "steps": ...}`. -/
structure RunResult where
  faults : Nat
  steps : List Step
deriving DecidableEq, Repr

/-- Python `list.index(x)` wrapped in try/except: the index of the first
occurrence of `x`, or `none` (a `ValueError`) when absent. -/
def firstIdx : List Page → Page → Option Nat
  | [], _ => none
  | p :: rest, x => if x = p then some 0 else (firstIdx rest x).map (· + 1)

/-- The common shape of the five Python loops: fold the reference string,
applying a per-policy step function (which may also look at the remaining
suffix, as `optimal` does), and record one `Step` per reference.  Returns
the step list together with the fault count. -/
def runGo {σ : Type} (step : σ → Page → List Page → Option (σ × Bool))
    (view : σ → List Page) : σ → List Page → Option (List Step × Nat)
  | _, [] => some ([], 0)
  | st, page :: rest =>
    match step st page rest with
    | none => none
    | some (st2, fault) =>
      match runGo step view st2 rest with
      | none => none
      | some (steps, faults) =>
        some (⟨page, view st, view st2, fault⟩ :: steps,
              (if fault then 1 else 0) + faults)

/-- One iteration of the `fifo` loop body. -/
def fifoStep (frame_size : Nat) (frames : List Page) (page : Page)
    (_future : List Page) : Option (List Page × Bool) :=
  if page ∈ frames then some (frames, false)
  else if frames.length < frame_size then some (frames ++ [page], true)
  else
    match frames with
    | [] => none
    | _ :: t => some (t ++ [page], true)

/-- `fifo(reference_string, frame_size)`. -/
def fifo (reference_string : List Page) (frame_size : Nat) : Option RunResult :=
  match runGo (fifoStep frame_size) id [] reference_string with
  | none => none
  | some (steps, faults) => some ⟨faults, steps⟩

/-- One iteration of the `lru` loop body: a hit removes the page and
re-appends it at the most-recently-used end. -/
def lruStep (frame_size : Nat) (frames : List Page) (page : Page)
    (_future : List Page) : Option (List Page × Bool) :=
  if page ∈ frames then some (frames.erase page ++ [page], false)
  else if frames.length < frame_size then some (frames ++ [page], true)
  else
    match frames with
    | [] => none
    | _ :: t => some (t ++ [page], true)

/-- `lru(reference_string, frame_size)`. -/
def lru (reference_string : List Page) (frame_size : Nat) : Option RunResult :=
  match runGo (lruStep frame_size) id [] reference_string with
  | none => none
  | some (steps, faults) => some ⟨faults, steps⟩

/-- A future-use distance as computed by `optimal`: either a concrete index
into the remaining suffix, or `float("inf")` for a page never used again.
`-1` (the initial `max_dist`) is representable since distances are `Int`. -/
inductive PDist where
  | fin : Int → PDist
  | top : PDist
deriving DecidableEq, Repr

/-- The Python `>` on distances: `inf > inf` is `False`, `inf > d` is
`True` for finite `d`, and finite distances compare as integers. -/
def PDist.gtb : PDist → PDist → Bool
  | .top, .fin _ => true
  | .top, .top => false
  | .fin _, .top => false
  | .fin a, .fin b => a > b

/-- `dist` for one resident page: `future.index(frame)`, with the
  `ValueError` handler turning a missing page into `float("inf")`. -/
def distOf (future : List Page) (frame : Page) : PDist :=
  match firstIdx future frame with
  | some n => .fin n
  | none => .top

/-- The eviction scan of `optimal`: fold over the frames keeping the page
with the strictly greatest distance (`replace` starts as `None`,
`max_dist` as `-1`). -/
def selectVictim (future : List Page) (frames : List Page) : Option Page :=
  (frames.foldl
    (fun acc frame =>
      if (distOf future frame).gtb acc.2 then (some frame, distOf future frame) else acc)
    ((none : Option Page), PDist.fin (-1))).1

/-- One iteration of the `optimal` loop body; `future` is
`reference_string[i+1:]`. -/
def optimalStep (frame_size : Nat) (frames : List Page) (page : Page)
    (future : List Page) : Option (List Page × Bool) :=
  if page ∈ frames then some (frames, false)
  else if frames.length < frame_size then some (frames ++ [page], true)
  else
    match selectVictim future frames with
    | none => none
    | some victim =>
      match firstIdx frames victim with
      | none => none
      | some i => some (frames.set i page, true)

/-- `optimal(reference_string, frame_size)`. -/
def optimal (reference_string : List Page) (frame_size : Nat) : Option RunResult :=
  match runGo (optimalStep frame_size) id [] reference_string with
  | none => none
  | some (steps, faults) => some ⟨faults, steps⟩

/-- The state of `second_chance` / `clock`: the frames, the reference
bits, and the persistent pointer. -/
structure SCState where
  frames : List Page
  ref_bits : List Nat
  pointer : Nat
deriving DecidableEq, Repr

/-- The `while ref_bits[pointer]:` loop of `second_chance` / `clock`:
clear 1-bits and advance the pointer modulo `modulus` until a 0-bit is
found; returns the bits and the final pointer.  The fuel only serves
termination: `ref_bits.length + 1` is always enough, and `none` for an
out-of-range read models the Python `IndexError`. -/
def sweep (modulus : Nat) : List Nat → Nat → Nat → Option (List Nat × Nat)
  | _, _, 0 => none
  | bits, pointer, fuel + 1 =>
    match bits.get? pointer with
    | none => none
    | some b =>
      if b ≠ 0 then sweep modulus (bits.set pointer 0) ((pointer + 1) % modulus) fuel
      else some (bits, pointer)

/-- One iteration of the `second_chance` loop body.  On a hit,
`ref_bits[frames.index(page)] = 1`; on a fault when full, run the sweep
(modulo the configured `frame_size`), replace the page at the final
pointer, set its bit, and advance the pointer once more. -/
def scStep (frame_size : Nat) (st : SCState) (page : Page)
    (_future : List Page) : Option (SCState × Bool) :=
  if page ∈ st.frames then
    match firstIdx st.frames page with
    | none => none
    | some i => some (⟨st.frames, st.ref_bits.set i 1, st.pointer⟩, false)
  else if st.frames.length < frame_size then
    some (⟨st.frames ++ [page], st.ref_bits ++ [1], st.pointer⟩, true)
  else
    match sweep frame_size st.ref_bits st.pointer (st.ref_bits.length + 1) with
    | none => none
    | some (bits2, ptr2) =>
      some (⟨st.frames.set ptr2 page, bits2.set ptr2 1, (ptr2 + 1) % frame_size⟩, true)

/-- `second_chance(reference_string, frame_size)`. -/
def second_chance (reference_string : List Page) (frame_size : Nat) :
    Option RunResult :=
  match runGo (scStep frame_size) SCState.frames ⟨[], [], 0⟩ reference_string with
  | none => none
  | some (steps, faults) => some ⟨faults, steps⟩

/-- One iteration of the `clock` loop body: identical to `second_chance`
except that the pointer wraps modulo `len(frames)` instead of the
configured `frame_size`. -/
def clockStep (frame_size : Nat) (st : SCState) (page : Page)
    (_future : List Page) : Option (SCState × Bool) :=
  if page ∈ st.frames then
    match firstIdx st.frames page with
    | none => none
    | some i => some (⟨st.frames, st.ref_bits.set i 1, st.pointer⟩, false)
  else if st.frames.length < frame_size then
    some (⟨st.frames ++ [page], st.ref_bits ++ [1], st.pointer⟩, true)
  else
    match sweep st.frames.length st.ref_bits st.pointer (st.ref_bits.length + 1) with
    | none => none
    | some (bits2, ptr2) =>
      some (⟨st.frames.set ptr2 page, bits2.set ptr2 1,
             (ptr2 + 1) % st.frames.length⟩, true)

/-- `clock(reference_string, frame_size)`. -/
def clock (reference_string : List Page) (frame_size : Nat) : Option RunResult :=
  match runGo (clockStep frame_size) SCState.frames ⟨[], [], 0⟩ reference_string with
  | none => none
  | some (steps, faults) => some ⟨faults, steps⟩

/-- The `ALGORITHMS` registration dictionary. -/
def ALGORITHMS : List (String × (List Page → Nat → Option RunResult)) :=
  [("FIFO", fifo), ("LRU", lru), ("Optimal", optimal),
   ("Second Chance", second_chance), ("Clock", clock)]

/-! ### Derived definitions used by the verification -/

/-- The frame-list invariant shared by `fifo`, `lru`, `optimal`. -/
def ListInv (cap : Nat) (frames : List Page) : Prop :=
  frames.Nodup ∧ frames.length ≤ cap

/-- The state invariant of `second_chance` / `clock`: duplicate-free
frames bounded by the capacity, one reference bit per frame, and a pointer
that is `0` until the frames first fill and in-range afterwards. -/
def SCInv (cap : Nat) (st : SCState) : Prop :=
  st.frames.Nodup ∧ st.frames.length ≤ cap ∧
  st.ref_bits.length = st.frames.length ∧
  (st.pointer = 0 ∨ (st.frames.length = cap ∧ st.pointer < cap))

/-- Tail of the eviction scan of `optimal`, once the accumulator holds a
candidate page: keep the page with the strictly greater distance. -/
def sel1 (future : List Page) : Page → List Page → Page
  | v, [] => v
  | v, q :: l =>
    if (distOf future q).gtb (distOf future v) then sel1 future q l
    else sel1 future v l

/-- Specification-side next-use distance: the index of the next occurrence
of `p` in the strict suffix `future`, or `⊤` for a page never used again. -/
def specNextUse (future : List Page) (p : Page) : ENat :=
  match future.findIdx? (fun q => decide (q = p)) with
  | some n => (n : ENat)
  | none => ⊤

/-- Specification-side eviction rule of `optimal`: `v` sits at some frame
index `j`, no resident page has a strictly greater next-use distance, and
every resident page at an earlier frame index has a strictly smaller one
(ties are broken in favor of the first page in frame order). -/
def IsFirstFarthest (future frames : List Page) (v : Page) : Prop :=
  ∃ j : Fin frames.length, frames.get j = v ∧
    (∀ q ∈ frames, specNextUse future q ≤ specNextUse future v) ∧
    ∀ k : Fin frames.length, k.1 < j.1 →
      specNextUse future (frames.get k) < specNextUse future v

/-- Specification-side description of the second-chance sweep: the number
of consecutive reference bits equal to 1 met when walking cyclically from
`ptr` (every one of them is cleared); the sweep stops at cyclic offset
`firstZeroOff bits ptr`.  When every bit is 1 the result is
`bits.length`: a full cycle clears all bits and stops where it started. -/
def firstZeroOff (bits : List Nat) (ptr : Nat) : Nat :=
  if h : ∃ k, k < bits.length ∧ bits.getD ((ptr + k) % bits.length) 1 = 0 then
    Nat.find h
  else bits.length

/-- `a` occurs (weakly) before any occurrence of `b`: every position of
`b` has a position of `a` no later than it. -/
def OccBefore (a b : Page) (l : List Page) : Prop :=
  ∀ j : Nat, l[j]? = some b → ∃ i : Nat, i ≤ j ∧ l[i]? = some a

/-- The optimal (clairvoyant) fault count from cache `C` on the remaining
references, with demand paging and at most `cap` resident pages: a hit is
free, a fault costs `1`, and on a full fault the best possible victim is
chosen.  This is the yardstick for the optimality claim. -/
def OPT (cap : Nat) : Finset Page → List Page → Nat
  | _, [] => 0
  | C, q :: σ =>
    if q ∈ C then OPT cap C σ
    else if C.card < cap then 1 + OPT cap (insert q C) σ
    else if h : C.Nonempty then
      1 + C.inf' h (fun a => OPT cap (insert q (C.erase a)) σ)
    else 1 + OPT cap C σ

/-! ### Basic facts about `firstIdx` -/

theorem firstIdx_of_mem {l : List Page} {x : Page} (h : x ∈ l) :
    ∃ i, firstIdx l x = some i := by
  induction l with
  | nil => cases h
  | cons p rest ih =>
    by_cases hx : x = p
    · exact ⟨0, by simp [firstIdx, hx]⟩
    · have hm : x ∈ rest := by
        rcases List.mem_cons.1 h with h' | h'
        · exact absurd h' hx
        · exact h'
      rcases ih hm with ⟨i, hi⟩
      exact ⟨i + 1, by simp [firstIdx, hx, hi]⟩

theorem firstIdx_none_iff {l : List Page} {x : Page} :
    firstIdx l x = none ↔ x ∉ l := by
  induction l with
  | nil => simp [firstIdx]
  | cons p rest ih =>
    by_cases hx : x = p
    · simp [firstIdx, hx]
    · simp [firstIdx, hx, ih]

theorem firstIdx_lt_length {l : List Page} {x : Page} {i : Nat}
    (h : firstIdx l x = some i) : i < l.length := by
  induction l generalizing i with
  | nil => simp [firstIdx] at h
  | cons p rest ih =>
    by_cases hx : x = p
    · simp [firstIdx, hx] at h
      subst h; simp
    · simp [firstIdx, hx] at h
      rcases h with ⟨j, hj, rfl⟩
      have := ih hj
      simp
      omega

theorem firstIdx_getElem? {l : List Page} {x : Page} {i : Nat}
    (h : firstIdx l x = some i) : l[i]? = some x := by
  induction l generalizing i with
  | nil => simp [firstIdx] at h
  | cons p rest ih =>
    by_cases hx : x = p
    · simp [firstIdx, hx] at h
      subst h; simp [hx]
    · simp [firstIdx, hx] at h
      rcases h with ⟨j, hj, rfl⟩
      simpa using ih hj

theorem firstIdx_min {l : List Page} {x : Page} {i : Nat}
    (h : firstIdx l x = some i) : ∀ j, l[j]? = some x → i ≤ j := by
  induction l generalizing i with
  | nil => simp [firstIdx] at h
  | cons p rest ih =>
    intro j hj
    by_cases hx : x = p
    · simp [firstIdx, hx] at h
      omega
    · simp [firstIdx, hx] at h
      rcases h with ⟨i', hi', rfl⟩
      cases j with
      | zero => simp at hj; exact absurd hj.symm hx
      | succ j' =>
        simp at hj
        exact Nat.succ_le_succ (ih hi' j' hj)

/-! ### Facts about `List.set` on duplicate-free lists -/

theorem getElem_set' (l : List Page) (i : Nat) (p : Page) (j : Nat)
    (hj : j < l.length) :
    (l.set i p).get ⟨j, by simpa using hj⟩ = if i = j then p else l.get ⟨j, hj⟩ := by
  by_cases hij : i = j
  · subst hij
    simp only [List.get_eq_getElem, if_pos rfl]
    exact List.getElem_set_self (h := by simpa using hj)
  · simp only [List.get_eq_getElem, if_neg hij]
    exact List.getElem_set_of_ne hij p (by simpa using hj)

theorem mem_set_iff' {l : List Page} (hn : l.Nodup) {i : Nat} (hi : i < l.length)
    {p x : Page} (hp : p ∉ l) :
    x ∈ l.set i p ↔ x = p ∨ (x ∈ l ∧ x ≠ l.get ⟨i, hi⟩) := by
  rw [List.nodup_iff_injective_get] at hn
  constructor
  · intro hx
    rcases List.mem_iff_get.1 hx with ⟨⟨j, hjl⟩, hj⟩
    have hj' : j < l.length := by simpa using hjl
    rw [getElem_set' l i p j hj'] at hj
    by_cases hij : i = j
    · rw [if_pos hij] at hj
      exact Or.inl hj.symm
    · rw [if_neg hij] at hj
      refine Or.inr ⟨hj ▸ List.get_mem l j hj', ?_⟩
      intro hc
      rw [← hj] at hc
      have := hn hc
      have : j = i := by simpa using congrArg Fin.val this
      exact hij this.symm
  · rintro (rfl | ⟨hx, hxi⟩)
    · refine List.mem_iff_get.2 ⟨⟨i, by simpa using hi⟩, ?_⟩
      rw [getElem_set' l i x i hi, if_pos rfl]
    · rcases List.mem_iff_get.1 hx with ⟨⟨j, hjl⟩, rfl⟩
      refine List.mem_iff_get.2 ⟨⟨j, by simpa using hjl⟩, ?_⟩
      rw [getElem_set' l i p j hjl, if_neg ?_]
      intro hc
      apply hxi
      congr 1
      exact Fin.ext hc.symm

theorem nodup_set {l : List Page} (hn : l.Nodup) {i : Nat} (hi : i < l.length)
    {p : Page} (hp : p ∉ l) : (l.set i p).Nodup := by
  have hinj := List.nodup_iff_injective_get.1 hn
  rw [List.nodup_iff_injective_get]
  rintro ⟨a, hal⟩ ⟨b, hbl⟩ hab
  have ha : a < l.length := by simpa using hal
  have hb : b < l.length := by simpa using hbl
  rw [getElem_set' l i p a ha, getElem_set' l i p b hb] at hab
  by_cases hai : i = a <;> by_cases hbi : i = b
  · apply Fin.ext; simp; omega
  · rw [if_pos hai, if_neg hbi] at hab
    exact absurd (hab ▸ List.get_mem l b hb) hp
  · rw [if_neg hai, if_pos hbi] at hab
    exact absurd (hab.symm ▸ List.get_mem l a ha) hp
  · rw [if_neg hai, if_neg hbi] at hab
    have := hinj hab
    apply Fin.ext
    simpa using congrArg Fin.val this

theorem toFinset_set {l : List Page} (hn : l.Nodup) {i : Nat} (hi : i < l.length)
    {p : Page} (hp : p ∉ l) :
    (l.set i p).toFinset = insert p (l.toFinset.erase (l.get ⟨i, hi⟩)) := by
  ext x
  simp only [List.mem_toFinset, Finset.mem_insert, Finset.mem_erase]
  rw [mem_set_iff' hn hi hp]
  constructor
  · rintro (rfl | ⟨hx, hne⟩)
    · exact Or.inl rfl
    · exact Or.inr ⟨hne, by simpa using hx⟩
  · rintro (rfl | ⟨hne, hx⟩)
    · exact Or.inl rfl
    · exact Or.inr ⟨by simpa using hx, hne⟩

/-! ### Generic trace machinery for `runGo` -/

section Generic

variable {σ : Type} {step : σ → Page → List Page → Option (σ × Bool)}
variable {view : σ → List Page}

/-- The relation "this list of step records is the trace that `runGo`
produces from state `st` on reference list `l`". -/
inductive Traces (step : σ → Page → List Page → Option (σ × Bool))
    (view : σ → List Page) : σ → List Page → List Step → Prop
  | nil (st : σ) : Traces step view st [] []
  | cons (st st2 : σ) (p : Page) (rest : List Page) (steps : List Step) (f : Bool) :
      step st p rest = some (st2, f) →
      Traces step view st2 rest steps →
      Traces step view st (p :: rest) (⟨p, view st, view st2, f⟩ :: steps)

theorem runGo_some (st : σ) (l : List Page) {steps : List Step} {faults : Nat}
    (h : runGo step view st l = some (steps, faults)) :
    Traces step view st l steps ∧ faults = steps.countP (·.page_fault) := by
  induction l generalizing st steps faults with
  | nil =>
    simp [runGo] at h
    rcases h with ⟨rfl, rfl⟩
    exact ⟨Traces.nil st, by simp⟩
  | cons p rest ih =>
    simp only [runGo] at h
    rcases h1 : step st p rest with _ | ⟨st2, fl⟩ <;> rw [h1] at h <;> dsimp only at h
    · simp at h
    · rcases h2 : runGo step view st2 rest with _ | ⟨steps', faults'⟩ <;>
        rw [h2] at h <;> dsimp only at h
      · simp at h
      · simp at h
        rcases h with ⟨rfl, rfl⟩
        rcases ih st2 h2 with ⟨ht, hc⟩
        refine ⟨Traces.cons st st2 p rest steps' fl h1 ht, ?_⟩
        simp [List.countP_cons, hc]
        cases fl <;> simp [Nat.add_comm]

theorem Traces.length_eq {st : σ} {l : List Page} {steps : List Step}
    (h : Traces step view st l steps) : steps.length = l.length := by
  induction h with
  | nil => rfl
  | cons _ _ _ _ _ _ _ _ ih => simp [ih]

/-- Every record in a trace comes from one application of the step function
to a state satisfying an arbitrary preserved invariant `P`. -/
theorem Traces.record_mem {P : σ → Prop} {st : σ} {l : List Page} {steps : List Step}
    (h : Traces step view st l steps) (hP : P st)
    (pres : ∀ s p r s2 f, P s → step s p r = some (s2, f) → P s2) :
    ∀ s ∈ steps, ∃ s1 s2 p r, P s1 ∧ step s1 p r = some (s2, s.page_fault) ∧
      s.page = p ∧ s.frames_before = view s1 ∧ s.frames_after = view s2 := by
  induction h with
  | nil => intro s hs; cases hs
  | cons st st2 p rest steps f h1 h2 ih =>
    intro s hs
    rcases List.mem_cons.1 hs with rfl | hs
    · exact ⟨st, st2, p, rest, hP, h1, rfl, rfl, rfl⟩
    · exact ih (pres _ _ _ _ _ hP h1) s hs

/-- The indexed version: record `i` of the trace is produced by the step
function applied to page `l.get i` with the strict suffix `l.drop (i+1)`. -/
theorem Traces.record_get {P : σ → Prop} {st : σ} {l : List Page} {steps : List Step}
    (h : Traces step view st l steps) (hP : P st)
    (pres : ∀ s p r s2 f, P s → step s p r = some (s2, f) → P s2) :
    ∀ i (hi : i < steps.length) (hl : i < l.length),
      ∃ s1 s2, P s1 ∧
        step s1 (l.get ⟨i, hl⟩) (l.drop (i + 1)) =
          some (s2, (steps.get ⟨i, hi⟩).page_fault) ∧
        (steps.get ⟨i, hi⟩).page = l.get ⟨i, hl⟩ ∧
        (steps.get ⟨i, hi⟩).frames_before = view s1 ∧
        (steps.get ⟨i, hi⟩).frames_after = view s2 := by
  induction h with
  | nil => intro i hi; simp at hi
  | cons st st2 p rest steps f h1 h2 ih =>
    intro i hi hl
    cases i with
    | zero => exact ⟨st, st2, hP, by simpa using h1, rfl, rfl, rfl⟩
    | succ i' =>
      have hi' : i' < steps.length := by simpa using hi
      have hl' : i' < rest.length := by simpa using hl
      rcases ih (pres _ _ _ _ _ hP h1) i' hi' hl' with ⟨s1, s2, hs1, hstep, hpage, hb, ha⟩
      exact ⟨s1, s2, hs1, by simpa using hstep, by simpa using hpage,
        by simpa using hb, by simpa using ha⟩

/-- If the step function always succeeds on invariant states, the run
succeeds. -/
theorem runGo_total {P : σ → Prop}
    (hstep : ∀ s p r, P s → ∃ s2 f, step s p r = some (s2, f) ∧ P s2) :
    ∀ (l : List Page) (st : σ), P st → ∃ res, runGo step view st l = some res := by
  intro l
  induction l with
  | nil => intro st _; exact ⟨([], 0), rfl⟩
  | cons p rest ih =>
    intro st hP
    rcases hstep st p rest hP with ⟨st2, f, h1, h2⟩
    rcases ih st2 h2 with ⟨⟨steps, faults⟩, h3⟩
    exact ⟨(⟨p, view st, view st2, f⟩ :: steps, (if f then 1 else 0) + faults),
      by simp only [runGo, h1, h3]⟩

/-- Two step functions that agree on invariant states produce identical
runs. -/
theorem runGo_congr {step' : σ → Page → List Page → Option (σ × Bool)} {P : σ → Prop}
    (hagree : ∀ s p r, P s → step s p r = step' s p r)
    (pres : ∀ s p r s2 f, P s → step s p r = some (s2, f) → P s2) :
    ∀ (l : List Page) (st : σ), P st →
      runGo step view st l = runGo step' view st l := by
  intro l
  induction l with
  | nil => intro st _; rfl
  | cons p rest ih =>
    intro st hP
    simp only [runGo, ← hagree st p rest hP]
    rcases h1 : step st p rest with _ | ⟨st2, f⟩ <;> dsimp only
    rw [ih st2 (pres _ _ _ _ _ hP h1)]

end Generic

/-! ### The eviction scan of `optimal` -/

theorem firstIdx_eq_findIdx? (l : List Page) (x : Page) :
    firstIdx l x = l.findIdx? (fun q => decide (q = x)) := by
  induction l with
  | nil => simp [firstIdx]
  | cons p rest ih =>
    by_cases hx : x = p
    · subst hx
      simp [firstIdx, List.findIdx?_cons]
    · have hpx : (decide (p = x)) = false := by
        simp
        exact fun hc => hx hc.symm
      simp [firstIdx, hx, List.findIdx?_cons, hpx, ih]

theorem gtb_true_iff (future : List Page) (a b : Page) :
    ((distOf future a).gtb (distOf future b) = true) ↔
      specNextUse future b < specNextUse future a := by
  unfold distOf specNextUse
  rw [← firstIdx_eq_findIdx?, ← firstIdx_eq_findIdx?]
  rcases firstIdx future a with _ | m <;> rcases firstIdx future b with _ | n <;>
    simp [PDist.gtb]

theorem gtb_neg1 (future : List Page) (x : Page) :
    (distOf future x).gtb (PDist.fin (-1)) = true := by
  unfold distOf
  rcases firstIdx future x with _ | m <;> simp [PDist.gtb]
  omega

theorem foldl_sel (future : List Page) : ∀ (l : List Page) (v : Page),
    l.foldl
      (fun acc frame =>
        if (distOf future frame).gtb acc.2 then (some frame, distOf future frame)
        else acc)
      ((some v : Option Page), distOf future v)
    = (some (sel1 future v l), distOf future (sel1 future v l)) := by
  intro l
  induction l with
  | nil => intro v; rfl
  | cons q l ih =>
    intro v
    simp only [List.foldl_cons, sel1]
    by_cases hg : (distOf future q).gtb (distOf future v) = true
    · rw [if_pos hg, if_pos hg]
      exact ih q
    · rw [if_neg hg, if_neg hg]
      exact ih v

theorem selectVictim_cons (future : List Page) (p : Page) (l : List Page) :
    selectVictim future (p :: l) = some (sel1 future p l) := by
  unfold selectVictim
  simp only [List.foldl_cons, gtb_neg1 future p, if_pos]
  rw [foldl_sel]

theorem sel1_mem (future : List Page) : ∀ (l : List Page) (v : Page),
    sel1 future v l = v ∨ sel1 future v l ∈ l := by
  intro l
  induction l with
  | nil => intro v; exact Or.inl rfl
  | cons q l ih =>
    intro v
    simp only [sel1]
    by_cases hg : (distOf future q).gtb (distOf future v) = true
    · rw [if_pos hg]
      rcases ih q with h | h
      · exact Or.inr (by rw [h]; exact List.mem_cons_self q l)
      · exact Or.inr (List.mem_cons_of_mem q h)
    · rw [if_neg hg]
      rcases ih v with h | h
      · exact Or.inl h
      · exact Or.inr (List.mem_cons_of_mem q h)

theorem sel1_max (future : List Page) : ∀ (l : List Page) (v q : Page),
    (q = v ∨ q ∈ l) →
    specNextUse future q ≤ specNextUse future (sel1 future v l) := by
  intro l
  induction l with
  | nil =>
    rintro v q (rfl | hq)
    · exact le_refl _
    · cases hq
  | cons q' l ih =>
    rintro v q hq
    simp only [sel1]
    by_cases hg : (distOf future q').gtb (distOf future v) = true
    · rw [if_pos hg]
      rw [gtb_true_iff] at hg
      rcases hq with heq | hq
      · subst heq
        exact le_of_lt (lt_of_lt_of_le hg (ih q' q' (Or.inl rfl)))
      · rcases List.mem_cons.1 hq with heq | hq
        · subst heq
          exact ih q q (Or.inl rfl)
        · exact ih q' q (Or.inr hq)
    · rw [if_neg hg]
      have hle : specNextUse future q' ≤ specNextUse future v := by
        rcases lt_or_le (specNextUse future v) (specNextUse future q') with h | h
        · exact absurd ((gtb_true_iff future q' v).mpr h) hg
        · exact h
      rcases hq with heq | hq
      · subst heq
        exact ih q q (Or.inl rfl)
      · rcases List.mem_cons.1 hq with heq | hq
        · subst heq
          exact le_trans hle (ih v v (Or.inl rfl))
        · exact ih v q (Or.inr hq)

theorem sel1_first (future : List Page) : ∀ (l : List Page) (v : Page),
    ∃ j : Fin (v :: l).length, (v :: l).get j = sel1 future v l ∧
      ∀ k : Fin (v :: l).length, k.1 < j.1 →
        specNextUse future ((v :: l).get k) < specNextUse future (sel1 future v l) := by
  intro l
  induction l with
  | nil =>
    intro v
    refine ⟨⟨0, by simp⟩, rfl, ?_⟩
    rintro ⟨k, hk⟩ hlt
    simp at hlt
  | cons q l ih =>
    intro v
    simp only [sel1]
    by_cases hg : (distOf future q).gtb (distOf future v) = true
    · rw [if_pos hg]
      rw [gtb_true_iff] at hg
      rcases ih q with ⟨⟨j, hj⟩, hget, hstrict⟩
      refine ⟨⟨j + 1, by simpa using hj⟩, by simpa using hget, ?_⟩
      rintro ⟨k, hk⟩ hlt
      match k, hk with
      | 0, hk =>
        show specNextUse future v < _
        exact lt_of_lt_of_le hg (sel1_max future l q q (Or.inl rfl))
      | k' + 1, hk =>
        have hk' : k' < (q :: l).length := by simpa using hk
        have : ((v :: q :: l).get ⟨k' + 1, hk⟩) = ((q :: l).get ⟨k', hk'⟩) := rfl
        rw [this]
        exact hstrict ⟨k', hk'⟩ (by simpa using hlt)
    · rw [if_neg hg]
      have hle : specNextUse future q ≤ specNextUse future v := by
        rcases lt_or_le (specNextUse future v) (specNextUse future q) with h | h
        · exact absurd ((gtb_true_iff future q v).mpr h) hg
        · exact h
      rcases ih v with ⟨⟨j, hj⟩, hget, hstrict⟩
      match j, hj with
      | 0, hj =>
        refine ⟨⟨0, by simp⟩, by simpa using hget, ?_⟩
        rintro ⟨k, hk⟩ hlt
        simp at hlt
      | j' + 1, hj =>
        have hj' : j' < l.length := by simpa using hj
        refine ⟨⟨j' + 2, by simpa using hj⟩, by simpa using hget, ?_⟩
        have hv : specNextUse future v < specNextUse future (sel1 future v l) := by
          have := hstrict ⟨0, by simp⟩ (by simp)
          simpa using this
        rintro ⟨k, hk⟩ hlt
        match k, hk with
        | 0, hk => exact hv
        | 1, hk => exact lt_of_le_of_lt hle hv
        | k' + 2, hk =>
          have hk' : k' + 1 < (v :: l).length := by simpa using hk
          have : ((v :: q :: l).get ⟨k' + 2, hk⟩) = ((v :: l).get ⟨k' + 1, hk'⟩) := rfl
          rw [this]
          exact hstrict ⟨k' + 1, hk'⟩ (by simpa using hlt)

theorem selectVictim_spec (future : List Page) {frames : List Page}
    (h : frames ≠ []) :
    ∃ v, selectVictim future frames = some v ∧ IsFirstFarthest future frames v ∧
      v ∈ frames := by
  match frames, h with
  | p :: l, _ =>
    refine ⟨sel1 future p l, selectVictim_cons future p l, ?_, ?_⟩
    · rcases sel1_first future l p with ⟨j, hget, hstrict⟩
      refine ⟨j, hget, ?_, ?_⟩
      · intro q hq
        rcases List.mem_cons.1 hq with rfl | hq
        · exact sel1_max future l q q (Or.inl rfl)
        · exact sel1_max future l p q (Or.inr hq)
      · intro k hk
        exact hstrict k hk
    · rcases sel1_mem future l p with h | h
      · rw [h]
        exact List.mem_cons_self p l
      · exact List.mem_cons_of_mem p h

/-! ### The sweep loop of `second_chance` / `clock` -/

theorem getD_set_ne {bits : List Nat} {i m : Nat} (h : i ≠ m) (x d : Nat) :
    (bits.set i x).getD m d = bits.getD m d := by
  rw [List.getD_eq_getElem?_getD, List.getD_eq_getElem?_getD,
    List.getElem?_set_ne h]

theorem getD_set_self {bits : List Nat} {i : Nat} (hi : i < bits.length)
    (x d : Nat) : (bits.set i x).getD i d = x := by
  rw [List.getD_eq_getElem?_getD, List.getElem?_set_eq hi]
  rfl

theorem firstZeroOff_le (bits : List Nat) (ptr : Nat) :
    firstZeroOff bits ptr ≤ bits.length := by
  unfold firstZeroOff
  split
  · rename_i h
    rcases h with ⟨k, hk, hz⟩
    exact le_of_lt (lt_of_le_of_lt (Nat.find_le ⟨hk, hz⟩) hk)
  · exact le_refl _

theorem firstZeroOff_zero_at {bits : List Nat} {ptr : Nat}
    (h : firstZeroOff bits ptr < bits.length) :
    bits.getD ((ptr + firstZeroOff bits ptr) % bits.length) 1 = 0 := by
  unfold firstZeroOff at *
  split at h
  · rename_i hex
    split
    · rename_i hex'
      exact (Nat.find_spec hex').2
    · rename_i hex'
      exact absurd hex hex'
  · exact absurd h (lt_irrefl _)

theorem firstZeroOff_pos_before {bits : List Nat} {ptr : Nat} :
    ∀ k, k < firstZeroOff bits ptr →
      bits.getD ((ptr + k) % bits.length) 1 ≠ 0 := by
  intro k hk
  unfold firstZeroOff at hk
  split at hk
  · rename_i hex
    intro hz
    have hkn : k < bits.length :=
      lt_of_lt_of_le hk (by
        have := firstZeroOff_le bits ptr
        unfold firstZeroOff at this
        rw [dif_pos hex] at this
        exact this)
    exact Nat.find_min hex hk ⟨hkn, hz⟩
  · rename_i hex
    intro hz
    exact hex ⟨k, hk, hz⟩

theorem firstZeroOff_intro {bits : List Nat} {ptr k0 : Nat}
    (h1 : ∀ k, k < k0 → bits.getD ((ptr + k) % bits.length) 1 ≠ 0)
    (h2 : k0 = bits.length ∨
      (k0 < bits.length ∧ bits.getD ((ptr + k0) % bits.length) 1 = 0)) :
    firstZeroOff bits ptr = k0 := by
  unfold firstZeroOff
  rcases h2 with rfl | ⟨hlt, hz⟩
  · rw [dif_neg]
    rintro ⟨k, hk, hzk⟩
    exact h1 k hk hzk
  · rw [dif_pos ⟨k0, hlt, hz⟩]
    rw [Nat.find_eq_iff]
    exact ⟨⟨hlt, hz⟩, fun k hk hc => h1 k hk hc.2⟩

theorem sweep_spec : ∀ (k0 : Nat) (bits : List Nat) (ptr fuel n : Nat),
    bits.length = n → ptr < n →
    firstZeroOff bits ptr = k0 → k0 < fuel →
    ∃ bits2, sweep n bits ptr fuel = some (bits2, (ptr + k0) % n) ∧
      bits2.length = n ∧
      (∀ m, m < n → bits2.getD m 1 =
        (if ∃ i, i < k0 ∧ (ptr + i) % n = m then 0 else bits.getD m 1)) := by
  intro k0
  induction k0 with
  | zero =>
    intro bits ptr fuel n hlen hptr hfz hfuel
    obtain ⟨f', rfl⟩ : ∃ f', fuel = f' + 1 := ⟨fuel - 1, by omega⟩
    have hn : 0 < n := by omega
    have hz : bits.getD ptr 1 = 0 := by
      have := @firstZeroOff_zero_at bits ptr
        (by rw [hfz]; omega)
      rw [hfz] at this
      simpa [hlen, Nat.mod_eq_of_lt hptr] using this
    have hget : bits.get? ptr = some 0 := by
      have hp : ptr < bits.length := by omega
      rw [List.get?_eq_getElem?, List.getElem?_eq_getElem hp]
      rw [List.getD_eq_getElem bits 1 hp] at hz
      simp [hz]
    refine ⟨bits, ?_, hlen, ?_⟩
    · simp only [sweep, hget]
      rw [if_neg (by simp)]
      rw [Nat.add_zero, Nat.mod_eq_of_lt hptr]
    · intro m hm
      rw [if_neg]
      rintro ⟨i, hi, _⟩
      omega
  | succ m ih =>
    intro bits ptr fuel n hlen hptr hfz hfuel
    obtain ⟨f', rfl⟩ : ∃ f', fuel = f' + 1 := ⟨fuel - 1, by omega⟩
    have hn : 0 < n := by omega
    have hk0n : m + 1 ≤ n := hfz ▸ hlen ▸ firstZeroOff_le bits ptr
    have hb : bits.getD ptr 1 ≠ 0 := by
      have := @firstZeroOff_pos_before bits ptr 0 (by omega)
      simpa [hlen, Nat.mod_eq_of_lt hptr] using this
    have hp : ptr < bits.length := by omega
    have hget : bits.get? ptr = some (bits.getD ptr 1) := by
      rw [List.get?_eq_getElem?, List.getElem?_eq_getElem hp,
        List.getD_eq_getElem bits 1 hp]
    set bits' := bits.set ptr 0 with hbits'
    set ptr' := (ptr + 1) % n with hptr'
    have hlen' : bits'.length = n := by simp [hbits', hlen]
    have hptr'n : ptr' < n := Nat.mod_lt _ hn
    have hmod : ∀ i : Nat, (ptr' + i) % n = (ptr + 1 + i) % n := by
      intro i
      rw [hptr']
      exact Nat.mod_add_mod (ptr + 1) n i
    have hcanc : ∀ s : Nat, 0 < s → s < n → (ptr + s) % n ≠ ptr := by
      intro s hs1 hs2 hc
      have h1 : (ptr + s) % n = (ptr + 0) % n := by
        rw [Nat.add_zero, Nat.mod_eq_of_lt hptr]
        exact hc
      have h2 : Nat.ModEq n s 0 := Nat.ModEq.add_left_cancel rfl h1
      have h3 : n ∣ s := (Nat.modEq_zero_iff_dvd).1 h2
      have := Nat.le_of_dvd hs1 h3
      omega
    have hfz' : firstZeroOff bits' ptr' = m := by
      apply firstZeroOff_intro
      · intro k hk
        rw [hlen', hmod k]
        have hne : (ptr + 1 + k) % n ≠ ptr := by
          have harith : ptr + 1 + k = ptr + (1 + k) := by omega
          rw [harith]
          exact hcanc (1 + k) (by omega) (by omega)
        rw [hbits', getD_set_ne (fun hc => hne hc.symm) 0 1]
        have hbefore := @firstZeroOff_pos_before bits ptr
          (k + 1) (by rw [hfz]; omega)
        rw [hlen] at hbefore
        have harith : ptr + (k + 1) = ptr + 1 + k := by omega
        rw [harith] at hbefore
        exact hbefore
      · right
        refine ⟨by omega, ?_⟩
        rw [hlen', hmod m]
        by_cases hcase : m + 1 < n
        · have hne : (ptr + 1 + m) % n ≠ ptr := by
            have harith : ptr + 1 + m = ptr + (m + 1) := by omega
            rw [harith]
            exact hcanc (m + 1) (by omega) hcase
          rw [hbits', getD_set_ne (fun hc => hne hc.symm) 0 1]
          have hzero := @firstZeroOff_zero_at bits ptr
            (by rw [hfz, hlen]; exact hcase)
          rw [hfz, hlen] at hzero
          have harith : ptr + (m + 1) = ptr + 1 + m := by omega
          rw [harith] at hzero
          exact hzero
        · have hm1 : m + 1 = n := by omega
          have hpos : (ptr + 1 + m) % n = ptr := by
            have harith : ptr + 1 + m = ptr + n := by omega
            rw [harith, Nat.add_mod_right, Nat.mod_eq_of_lt hptr]
          rw [hpos, hbits', getD_set_self hp 0 1]
    rcases ih bits' ptr' f' n hlen' hptr'n hfz' (by omega) with
      ⟨bits2, hsw, hlen2, hdesc⟩
    have hptrk : (ptr' + m) % n = (ptr + (m + 1)) % n := by
      rw [hmod m]
      have harith : ptr + 1 + m = ptr + (m + 1) := by omega
      rw [harith]
    refine ⟨bits2, ?_, hlen2, ?_⟩
    · simp only [sweep, hget]
      rw [if_pos hb, ← hptrk]
      exact hsw
    · intro m' hm'
      have hiff : (∃ i, i < m + 1 ∧ (ptr + i) % n = m') ↔
          ((∃ i, i < m ∧ (ptr' + i) % n = m') ∨ m' = ptr) := by
        constructor
        · rintro ⟨i, hi, rfl⟩
          match i, hi with
          | 0, hi =>
            right
            rw [Nat.add_zero, Nat.mod_eq_of_lt hptr]
          | i' + 1, hi =>
            left
            refine ⟨i', by omega, ?_⟩
            rw [hmod i']
            congr 1
            omega
        · rintro (⟨i, hi, rfl⟩ | rfl)
          · refine ⟨i + 1, by omega, ?_⟩
            rw [hmod i]
            congr 1
            omega
          · exact ⟨0, by omega, by rw [Nat.add_zero, Nat.mod_eq_of_lt hptr]⟩
      rw [hdesc m' hm']
      by_cases h1 : ∃ i, i < m + 1 ∧ (ptr + i) % n = m'
      · rw [if_pos h1]
        rcases hiff.1 h1 with h2 | h2
        · rw [if_pos h2]
        · by_cases h3 : ∃ i, i < m ∧ (ptr' + i) % n = m'
          · rw [if_pos h3]
          · rw [if_neg h3, h2, hbits', getD_set_self hp 0 1]
      · rw [if_neg h1]
        have h2 : ¬ ∃ i, i < m ∧ (ptr' + i) % n = m' :=
          fun hc => h1 (hiff.2 (Or.inl hc))
        have h3 : m' ≠ ptr := fun hc => h1 (hiff.2 (Or.inr hc))
        rw [if_neg h2, hbits', getD_set_ne (fun hc => h3 hc.symm) 0 1]

theorem selectVictim_eq_some {future frames : List Page} {v : Page}
    (h : selectVictim future frames = some v) :
    IsFirstFarthest future frames v ∧ v ∈ frames := by
  match frames with
  | [] => simp [selectVictim] at h
  | p :: l =>
    rcases @selectVictim_spec future (p :: l) (by simp) with
      ⟨v', hv', hff, hmem⟩
    rw [hv'] at h
    cases h
    exact ⟨hff, hmem⟩

/-! ### Shape, invariant and totality of the step functions -/

theorem nodup_append_singleton {l : List Page} {p : Page} (hn : l.Nodup)
    (hp : p ∉ l) : (l ++ [p]).Nodup := by
  simp [List.nodup_append, hn]
  exact hp

theorem fifoStep_cases {cap : Nat} {frames : List Page} {p : Page}
    {future : List Page} {fr2 : List Page} {f : Bool}
    (h : fifoStep cap frames p future = some (fr2, f)) :
    (f = false ∧ p ∈ frames ∧ fr2 = frames) ∨
    (f = true ∧ p ∉ frames ∧ frames.length < cap ∧ fr2 = frames ++ [p]) ∨
    (f = true ∧ p ∉ frames ∧ ¬ frames.length < cap ∧
      ∃ q t, frames = q :: t ∧ fr2 = t ++ [p]) := by
  unfold fifoStep at h
  by_cases h1 : p ∈ frames
  · rw [if_pos h1] at h
    simp at h
    exact Or.inl ⟨h.2, h1, h.1.symm⟩
  · rw [if_neg h1] at h
    by_cases h2 : frames.length < cap
    · rw [if_pos h2] at h
      simp at h
      exact Or.inr (Or.inl ⟨h.2, h1, h2, h.1.symm⟩)
    · rw [if_neg h2] at h
      match frames, h with
      | q :: t, h =>
        simp at h
        exact Or.inr (Or.inr ⟨h.2, h1, h2, q, t, rfl, h.1.symm⟩)

theorem lruStep_cases {cap : Nat} {frames : List Page} {p : Page}
    {future : List Page} {fr2 : List Page} {f : Bool}
    (h : lruStep cap frames p future = some (fr2, f)) :
    (f = false ∧ p ∈ frames ∧ fr2 = frames.erase p ++ [p]) ∨
    (f = true ∧ p ∉ frames ∧ frames.length < cap ∧ fr2 = frames ++ [p]) ∨
    (f = true ∧ p ∉ frames ∧ ¬ frames.length < cap ∧
      ∃ q t, frames = q :: t ∧ fr2 = t ++ [p]) := by
  unfold lruStep at h
  by_cases h1 : p ∈ frames
  · rw [if_pos h1] at h
    simp at h
    exact Or.inl ⟨h.2, h1, h.1.symm⟩
  · rw [if_neg h1] at h
    by_cases h2 : frames.length < cap
    · rw [if_pos h2] at h
      simp at h
      exact Or.inr (Or.inl ⟨h.2, h1, h2, h.1.symm⟩)
    · rw [if_neg h2] at h
      match frames, h with
      | q :: t, h =>
        simp at h
        exact Or.inr (Or.inr ⟨h.2, h1, h2, q, t, rfl, h.1.symm⟩)

theorem optimalStep_cases {cap : Nat} {frames : List Page} {p : Page}
    {future : List Page} {fr2 : List Page} {f : Bool}
    (h : optimalStep cap frames p future = some (fr2, f)) :
    (f = false ∧ p ∈ frames ∧ fr2 = frames) ∨
    (f = true ∧ p ∉ frames ∧ frames.length < cap ∧ fr2 = frames ++ [p]) ∨
    (f = true ∧ p ∉ frames ∧ ¬ frames.length < cap ∧
      ∃ v i, selectVictim future frames = some v ∧ firstIdx frames v = some i ∧
        fr2 = frames.set i p) := by
  unfold optimalStep at h
  by_cases h1 : p ∈ frames
  · rw [if_pos h1] at h
    simp at h
    exact Or.inl ⟨h.2, h1, h.1.symm⟩
  · rw [if_neg h1] at h
    by_cases h2 : frames.length < cap
    · rw [if_pos h2] at h
      simp at h
      exact Or.inr (Or.inl ⟨h.2, h1, h2, h.1.symm⟩)
    · rw [if_neg h2] at h
      rcases h3 : selectVictim future frames with _ | v <;> rw [h3] at h <;>
        dsimp only at h
      · simp at h
      · rcases h4 : firstIdx frames v with _ | i <;> rw [h4] at h <;>
          dsimp only at h
        · simp at h
        · simp at h
          exact Or.inr (Or.inr ⟨h.2, h1, h2, v, i, rfl, h4, h.1.symm⟩)

theorem scStep_cases {cap : Nat} {st : SCState} {p : Page}
    {future : List Page} {st2 : SCState} {f : Bool}
    (h : scStep cap st p future = some (st2, f)) :
    (f = false ∧ p ∈ st.frames ∧ ∃ i, firstIdx st.frames p = some i ∧
      st2 = ⟨st.frames, st.ref_bits.set i 1, st.pointer⟩) ∨
    (f = true ∧ p ∉ st.frames ∧ st.frames.length < cap ∧
      st2 = ⟨st.frames ++ [p], st.ref_bits ++ [1], st.pointer⟩) ∨
    (f = true ∧ p ∉ st.frames ∧ ¬ st.frames.length < cap ∧
      ∃ bits2 ptr2,
        sweep cap st.ref_bits st.pointer (st.ref_bits.length + 1) =
          some (bits2, ptr2) ∧
        st2 = ⟨st.frames.set ptr2 p, bits2.set ptr2 1, (ptr2 + 1) % cap⟩) := by
  unfold scStep at h
  by_cases h1 : p ∈ st.frames
  · rw [if_pos h1] at h
    rcases h3 : firstIdx st.frames p with _ | i <;> rw [h3] at h <;> dsimp only at h
    · simp at h
    · simp at h
      exact Or.inl ⟨h.2, h1, i, rfl, h.1.symm⟩
  · rw [if_neg h1] at h
    by_cases h2 : st.frames.length < cap
    · rw [if_pos h2] at h
      simp at h
      exact Or.inr (Or.inl ⟨h.2, h1, h2, h.1.symm⟩)
    · rw [if_neg h2] at h
      rcases h3 : sweep cap st.ref_bits st.pointer (st.ref_bits.length + 1) with
        _ | ⟨bits2, ptr2⟩ <;> rw [h3] at h <;> dsimp only at h
      · simp at h
      · simp at h
        exact Or.inr (Or.inr ⟨h.2, h1, h2, bits2, ptr2, rfl, h.1.symm⟩)

theorem clockStep_cases {cap : Nat} {st : SCState} {p : Page}
    {future : List Page} {st2 : SCState} {f : Bool}
    (h : clockStep cap st p future = some (st2, f)) :
    (f = false ∧ p ∈ st.frames ∧ ∃ i, firstIdx st.frames p = some i ∧
      st2 = ⟨st.frames, st.ref_bits.set i 1, st.pointer⟩) ∨
    (f = true ∧ p ∉ st.frames ∧ st.frames.length < cap ∧
      st2 = ⟨st.frames ++ [p], st.ref_bits ++ [1], st.pointer⟩) ∨
    (f = true ∧ p ∉ st.frames ∧ ¬ st.frames.length < cap ∧
      ∃ bits2 ptr2,
        sweep st.frames.length st.ref_bits st.pointer (st.ref_bits.length + 1) =
          some (bits2, ptr2) ∧
        st2 = ⟨st.frames.set ptr2 p, bits2.set ptr2 1,
               (ptr2 + 1) % st.frames.length⟩) := by
  unfold clockStep at h
  by_cases h1 : p ∈ st.frames
  · rw [if_pos h1] at h
    rcases h3 : firstIdx st.frames p with _ | i <;> rw [h3] at h <;> dsimp only at h
    · simp at h
    · simp at h
      exact Or.inl ⟨h.2, h1, i, rfl, h.1.symm⟩
  · rw [if_neg h1] at h
    by_cases h2 : st.frames.length < cap
    · rw [if_pos h2] at h
      simp at h
      exact Or.inr (Or.inl ⟨h.2, h1, h2, h.1.symm⟩)
    · rw [if_neg h2] at h
      rcases h3 : sweep st.frames.length st.ref_bits st.pointer
          (st.ref_bits.length + 1) with _ | ⟨bits2, ptr2⟩ <;> rw [h3] at h <;>
        dsimp only at h
      · simp at h
      · simp at h
        exact Or.inr (Or.inr ⟨h.2, h1, h2, bits2, ptr2, rfl, h.1.symm⟩)

theorem sweep_success {bits : List Nat} {n ptr : Nat} (hlen : bits.length = n)
    (hptr : ptr < n) :
    ∃ bits2 ptr2, sweep n bits ptr (bits.length + 1) = some (bits2, ptr2) ∧
      bits2.length = n ∧ ptr2 < n := by
  rcases sweep_spec (firstZeroOff bits ptr) bits ptr (bits.length + 1) n hlen hptr
    rfl (by have := firstZeroOff_le bits ptr; omega) with ⟨bits2, hsw, hlen2, _⟩
  exact ⟨bits2, _, hsw, hlen2, Nat.mod_lt _ (by omega)⟩

theorem fifoStep_pres {cap : Nat} :
    ∀ s p r s2 f, ListInv cap s → fifoStep cap s p r = some (s2, f) →
      ListInv cap s2 := by
  intro s p r s2 f hinv h
  rcases hinv with ⟨hn, hlen⟩
  rcases fifoStep_cases h with ⟨_, _, rfl⟩ | ⟨_, hp, hlt, rfl⟩ |
    ⟨_, hp, _, q, t, rfl, rfl⟩
  · exact ⟨hn, hlen⟩
  · exact ⟨nodup_append_singleton hn hp, by simp; omega⟩
  · rcases List.nodup_cons.1 hn with ⟨hq, ht⟩
    refine ⟨nodup_append_singleton ht (fun hc => hp (List.mem_cons_of_mem q hc)), ?_⟩
    simp at hlen ⊢
    omega

theorem fifoStep_total {cap : Nat} (hcap : 1 ≤ cap) :
    ∀ s p r, ListInv cap s → ∃ s2 f, fifoStep cap s p r = some (s2, f) ∧
      ListInv cap s2 := by
  intro s p r hinv
  by_cases h1 : p ∈ s
  · exact ⟨s, false, by simp [fifoStep, h1], hinv⟩
  · by_cases h2 : s.length < cap
    · have heq : fifoStep cap s p r = some (s ++ [p], true) := by
        simp [fifoStep, h1, h2]
      exact ⟨_, _, heq, fifoStep_pres s p r _ _ hinv heq⟩
    · match s, hinv, h2 with
      | q :: t, hinv, h2 =>
        have heq : fifoStep cap (q :: t) p r = some (t ++ [p], true) := by
          unfold fifoStep
          rw [if_neg h1, if_neg h2]
        exact ⟨_, _, heq, fifoStep_pres (q :: t) p r _ _ hinv heq⟩
      | [], hinv, h2 => exact absurd (by simpa using hcap) h2

theorem lruStep_pres {cap : Nat} :
    ∀ s p r s2 f, ListInv cap s → lruStep cap s p r = some (s2, f) →
      ListInv cap s2 := by
  intro s p r s2 f hinv h
  rcases hinv with ⟨hn, hlen⟩
  rcases lruStep_cases h with ⟨_, hp, rfl⟩ | ⟨_, hp, hlt, rfl⟩ |
    ⟨_, hp, _, q, t, rfl, rfl⟩
  · refine ⟨nodup_append_singleton (hn.erase p) ?_, ?_⟩
    · intro hc
      exact (List.Nodup.mem_erase_iff hn).1 hc |>.1 rfl
    · have := List.length_erase_of_mem hp
      have hpos : 1 ≤ s.length := List.length_pos_of_mem hp
      simp [this]
      omega
  · exact ⟨nodup_append_singleton hn hp, by simp; omega⟩
  · rcases List.nodup_cons.1 hn with ⟨hq, ht⟩
    refine ⟨nodup_append_singleton ht (fun hc => hp (List.mem_cons_of_mem q hc)), ?_⟩
    simp at hlen ⊢
    omega

theorem lruStep_total {cap : Nat} (hcap : 1 ≤ cap) :
    ∀ s p r, ListInv cap s → ∃ s2 f, lruStep cap s p r = some (s2, f) ∧
      ListInv cap s2 := by
  intro s p r hinv
  by_cases h1 : p ∈ s
  · have heq : lruStep cap s p r = some (s.erase p ++ [p], false) := by
      simp [lruStep, h1]
    exact ⟨_, _, heq, lruStep_pres s p r _ _ hinv heq⟩
  · by_cases h2 : s.length < cap
    · have heq : lruStep cap s p r = some (s ++ [p], true) := by
        simp [lruStep, h1, h2]
      exact ⟨_, _, heq, lruStep_pres s p r _ _ hinv heq⟩
    · match s, hinv, h2 with
      | q :: t, hinv, h2 =>
        have heq : lruStep cap (q :: t) p r = some (t ++ [p], true) := by
          unfold lruStep
          rw [if_neg h1, if_neg h2]
        exact ⟨_, _, heq, lruStep_pres (q :: t) p r _ _ hinv heq⟩
      | [], hinv, h2 => exact absurd (by simpa using hcap) h2

theorem optimalStep_pres {cap : Nat} :
    ∀ s p r s2 f, ListInv cap s → optimalStep cap s p r = some (s2, f) →
      ListInv cap s2 := by
  intro s p r s2 f hinv h
  rcases hinv with ⟨hn, hlen⟩
  rcases optimalStep_cases h with ⟨_, _, rfl⟩ | ⟨_, hp, hlt, rfl⟩ |
    ⟨_, hp, _, v, i, hsel, hidx, rfl⟩
  · exact ⟨hn, hlen⟩
  · exact ⟨nodup_append_singleton hn hp, by simp; omega⟩
  · have hi : i < s.length := firstIdx_lt_length hidx
    exact ⟨nodup_set hn hi hp, by simp [hlen]⟩

theorem optimalStep_total {cap : Nat} (hcap : 1 ≤ cap) :
    ∀ s p r, ListInv cap s → ∃ s2 f, optimalStep cap s p r = some (s2, f) ∧
      ListInv cap s2 := by
  intro s p r hinv
  by_cases h1 : p ∈ s
  · exact ⟨s, false, by simp [optimalStep, h1], hinv⟩
  · by_cases h2 : s.length < cap
    · have heq : optimalStep cap s p r = some (s ++ [p], true) := by
        simp [optimalStep, h1, h2]
      exact ⟨_, _, heq, optimalStep_pres s p r _ _ hinv heq⟩
    · have hne : s ≠ [] := by
        intro hc
        subst hc
        exact h2 (by simpa using hcap)
      rcases @selectVictim_spec r s hne with ⟨v, hsel, _, hmem⟩
      rcases firstIdx_of_mem hmem with ⟨i, hidx⟩
      have heq : optimalStep cap s p r = some (s.set i p, true) := by
        unfold optimalStep
        rw [if_neg h1, if_neg h2, hsel]
        dsimp only
        rw [hidx]
      exact ⟨s.set i p, true, heq, optimalStep_pres s p r _ _ hinv heq⟩

theorem scStep_pres {cap : Nat} (hcap : 1 ≤ cap) :
    ∀ s p r s2 f, SCInv cap s → scStep cap s p r = some (s2, f) →
      SCInv cap s2 := by
  intro s p r s2 f hinv h
  rcases hinv with ⟨hn, hlen, hbits, hptr⟩
  rcases scStep_cases h with ⟨_, hp, i, hidx, rfl⟩ | ⟨_, hp, hlt, rfl⟩ |
    ⟨_, hp, hfull, bits2, ptr2, hsw, rfl⟩
  · exact ⟨hn, hlen, by simpa using hbits, hptr⟩
  · refine ⟨nodup_append_singleton hn hp, by simp; omega, by simp [hbits], ?_⟩
    left
    rcases hptr with h0 | ⟨hcapeq, _⟩
    · exact h0
    · omega
  · have hfcap : s.frames.length = cap := by omega
    have hbcap : s.ref_bits.length = cap := by omega
    have hpcap : s.pointer < cap := by
      rcases hptr with h0 | ⟨_, hlt'⟩
      · omega
      · exact hlt'
    rcases sweep_success hbcap hpcap with ⟨bits2', ptr2', hsw', hlen2', hptr2'⟩
    rw [hsw] at hsw'
    obtain ⟨rfl, rfl⟩ : bits2 = bits2' ∧ ptr2 = ptr2' := by simpa using hsw'
    have hptr2 : ptr2 < s.frames.length := by omega
    refine ⟨nodup_set hn hptr2 hp, by simp; omega, by simp [hlen2']; omega, ?_⟩
    right
    refine ⟨by simp [hfcap], Nat.mod_lt _ (by omega)⟩

theorem scStep_total {cap : Nat} (hcap : 1 ≤ cap) :
    ∀ s p r, SCInv cap s → ∃ s2 f, scStep cap s p r = some (s2, f) ∧
      SCInv cap s2 := by
  intro s p r hinv
  by_cases h1 : p ∈ s.frames
  · rcases firstIdx_of_mem h1 with ⟨i, hidx⟩
    have heq : scStep cap s p r =
        some (⟨s.frames, s.ref_bits.set i 1, s.pointer⟩, false) := by
      unfold scStep
      rw [if_pos h1, hidx]
    exact ⟨_, _, heq, scStep_pres hcap s p r _ _ hinv heq⟩
  · by_cases h2 : s.frames.length < cap
    · have heq : scStep cap s p r =
          some (⟨s.frames ++ [p], s.ref_bits ++ [1], s.pointer⟩, true) := by
        unfold scStep
        rw [if_neg h1, if_pos h2]
      exact ⟨_, _, heq, scStep_pres hcap s p r _ _ hinv heq⟩
    · rcases hinv with ⟨hn, hlen, hbits, hptr⟩
      have hbcap : s.ref_bits.length = cap := by omega
      have hpcap : s.pointer < cap := by
        rcases hptr with h0 | ⟨_, hlt'⟩
        · omega
        · exact hlt'
      rcases sweep_success hbcap hpcap with ⟨bits2, ptr2, hsw, hlen2, hptr2⟩
      have heq : scStep cap s p r =
          some (⟨s.frames.set ptr2 p, bits2.set ptr2 1, (ptr2 + 1) % cap⟩, true) := by
        unfold scStep
        rw [if_neg h1, if_neg h2, hsw]
      exact ⟨_, _, heq, scStep_pres hcap s p r _ _ ⟨hn, hlen, hbits, hptr⟩ heq⟩

theorem scStep_eq_clockStep {cap : Nat} :
    ∀ s p r, SCInv cap s → scStep cap s p r = clockStep cap s p r := by
  intro s p r hinv
  rcases hinv with ⟨_, hlen, _, _⟩
  unfold scStep clockStep
  by_cases h1 : p ∈ s.frames
  · rw [if_pos h1, if_pos h1]
  · rw [if_neg h1, if_neg h1]
    by_cases h2 : s.frames.length < cap
    · rw [if_pos h2, if_pos h2]
    · rw [if_neg h2, if_neg h2]
      have hfcap : s.frames.length = cap := by omega
      rw [hfcap]

theorem clockStep_pres {cap : Nat} (hcap : 1 ≤ cap) :
    ∀ s p r s2 f, SCInv cap s → clockStep cap s p r = some (s2, f) →
      SCInv cap s2 := by
  intro s p r s2 f hinv h
  rw [← scStep_eq_clockStep s p r hinv] at h
  exact scStep_pres hcap s p r s2 f hinv h

theorem clockStep_total {cap : Nat} (hcap : 1 ≤ cap) :
    ∀ s p r, SCInv cap s → ∃ s2 f, clockStep cap s p r = some (s2, f) ∧
      SCInv cap s2 := by
  intro s p r hinv
  rcases scStep_total hcap s p r hinv with ⟨s2, f, heq, hinv2⟩
  exact ⟨s2, f, (scStep_eq_clockStep s p r hinv) ▸ heq, hinv2⟩

/-! ### Run-level packaging -/

theorem fifo_some {seq : List Page} {cap : Nat} {r : RunResult}
    (h : fifo seq cap = some r) :
    runGo (fifoStep cap) id [] seq = some (r.steps, r.faults) := by
  unfold fifo at h
  rcases hrun : runGo (fifoStep cap) id [] seq with _ | ⟨steps, faults⟩ <;>
    rw [hrun] at h <;> dsimp only at h
  · simp at h
  · simp at h
    subst h
    rfl

theorem lru_some {seq : List Page} {cap : Nat} {r : RunResult}
    (h : lru seq cap = some r) :
    runGo (lruStep cap) id [] seq = some (r.steps, r.faults) := by
  unfold lru at h
  rcases hrun : runGo (lruStep cap) id [] seq with _ | ⟨steps, faults⟩ <;>
    rw [hrun] at h <;> dsimp only at h
  · simp at h
  · simp at h
    subst h
    rfl

theorem optimal_some {seq : List Page} {cap : Nat} {r : RunResult}
    (h : optimal seq cap = some r) :
    runGo (optimalStep cap) id [] seq = some (r.steps, r.faults) := by
  unfold optimal at h
  rcases hrun : runGo (optimalStep cap) id [] seq with _ | ⟨steps, faults⟩ <;>
    rw [hrun] at h <;> dsimp only at h
  · simp at h
  · simp at h
    subst h
    rfl

theorem second_chance_some {seq : List Page} {cap : Nat} {r : RunResult}
    (h : second_chance seq cap = some r) :
    runGo (scStep cap) SCState.frames ⟨[], [], 0⟩ seq = some (r.steps, r.faults) := by
  unfold second_chance at h
  rcases hrun : runGo (scStep cap) SCState.frames ⟨[], [], 0⟩ seq with
    _ | ⟨steps, faults⟩ <;> rw [hrun] at h <;> dsimp only at h
  · simp at h
  · simp at h
    subst h
    rfl

theorem clock_some {seq : List Page} {cap : Nat} {r : RunResult}
    (h : clock seq cap = some r) :
    runGo (clockStep cap) SCState.frames ⟨[], [], 0⟩ seq = some (r.steps, r.faults) := by
  unfold clock at h
  rcases hrun : runGo (clockStep cap) SCState.frames ⟨[], [], 0⟩ seq with
    _ | ⟨steps, faults⟩ <;> rw [hrun] at h <;> dsimp only at h
  · simp at h
  · simp at h
    subst h
    rfl

theorem listInv_nil {cap : Nat} : ListInv cap [] := ⟨List.nodup_nil, by simp⟩

theorem scInv_init {cap : Nat} : SCInv cap ⟨[], [], 0⟩ :=
  ⟨List.nodup_nil, by simp, by simp, Or.inl rfl⟩

theorem fifo_total (seq : List Page) {cap : Nat} (hcap : 1 ≤ cap) :
    ∃ r, fifo seq cap = some r := by
  rcases @runGo_total (List Page) (fifoStep cap) id (ListInv cap)
    (fifoStep_total hcap) seq [] listInv_nil with ⟨⟨steps, faults⟩, h⟩
  exact ⟨⟨faults, steps⟩, by unfold fifo; rw [h]⟩

theorem lru_total (seq : List Page) {cap : Nat} (hcap : 1 ≤ cap) :
    ∃ r, lru seq cap = some r := by
  rcases @runGo_total (List Page) (lruStep cap) id (ListInv cap)
    (lruStep_total hcap) seq [] listInv_nil with ⟨⟨steps, faults⟩, h⟩
  exact ⟨⟨faults, steps⟩, by unfold lru; rw [h]⟩

theorem optimal_total (seq : List Page) {cap : Nat} (hcap : 1 ≤ cap) :
    ∃ r, optimal seq cap = some r := by
  rcases @runGo_total (List Page) (optimalStep cap) id (ListInv cap)
    (optimalStep_total hcap) seq [] listInv_nil with ⟨⟨steps, faults⟩, h⟩
  exact ⟨⟨faults, steps⟩, by unfold optimal; rw [h]⟩

theorem second_chance_total (seq : List Page) {cap : Nat} (hcap : 1 ≤ cap) :
    ∃ r, second_chance seq cap = some r := by
  rcases @runGo_total SCState (scStep cap) SCState.frames (SCInv cap)
    (scStep_total hcap) seq ⟨[], [], 0⟩ scInv_init with ⟨⟨steps, faults⟩, h⟩
  exact ⟨⟨faults, steps⟩, by unfold second_chance; rw [h]⟩

theorem clock_total (seq : List Page) {cap : Nat} (hcap : 1 ≤ cap) :
    ∃ r, clock seq cap = some r := by
  rcases @runGo_total SCState (clockStep cap) SCState.frames (SCInv cap)
    (clockStep_total hcap) seq ⟨[], [], 0⟩ scInv_init with ⟨⟨steps, faults⟩, h⟩
  exact ⟨⟨faults, steps⟩, by unfold clock; rw [h]⟩

/-! ### Claim theorems -/

/-- C1: for the reference sequence `[1,2,3,4,1,2,5,1,2,3,4,5]` with
capacity 3, `fifo` returns a fault count of 9, `lru` returns 10, and
`optimal` returns 7. -/
theorem claim_C1 :
    (fifo [1, 2, 3, 4, 1, 2, 5, 1, 2, 3, 4, 5] 3).map RunResult.faults = some 9 ∧
    (lru [1, 2, 3, 4, 1, 2, 5, 1, 2, 3, 4, 5] 3).map RunResult.faults = some 10 ∧
    (optimal [1, 2, 3, 4, 1, 2, 5, 1, 2, 3, 4, 5] 3).map RunResult.faults = some 7 := by
  refine ⟨?_, ?_, ?_⟩ <;> rfl

/-- C3 counterexample: with capacity 0 and the empty reference sequence,
every registered policy returns a normal `RunResult` (zero faults, empty
trace) — it does not fail, with an `InvalidCapacity` error or otherwise.
No `InvalidCapacity` validation exists anywhere in the engine. -/
theorem claim_C3_counterexample :
    fifo [] 0 = some ⟨0, []⟩ ∧ lru [] 0 = some ⟨0, []⟩ ∧
    optimal [] 0 = some ⟨0, []⟩ ∧ second_chance [] 0 = some ⟨0, []⟩ ∧
    clock [] 0 = some ⟨0, []⟩ :=
  ⟨rfl, rfl, rfl, rfl, rfl⟩

/-- C3 amended: with capacity 0, every registered policy crashes with an
uncaught `IndexError`/`ValueError` (modelled as `none`) on the first
reference when the sequence is nonempty — there is no `InvalidCapacity`
validation — while the empty reference sequence yields a normal
`RunResult` with zero faults and an empty trace. -/
theorem claim_C3 :
    ∀ nf ∈ ALGORITHMS, ∀ seq : List Page,
      (seq ≠ [] → nf.2 seq 0 = none) ∧ nf.2 [] 0 = some ⟨0, []⟩ := by
  intro nf hnf seq
  simp only [ALGORITHMS, List.mem_cons, List.not_mem_nil, or_false] at hnf
  rcases hnf with rfl | rfl | rfl | rfl | rfl <;>
    cases seq with
    | nil => exact ⟨fun h => absurd rfl h, rfl⟩
    | cons p rest => exact ⟨fun _ => rfl, rfl⟩

/-- Witness for C3 amended, at the policy `fifo` on the one-element
sequence `[1]`. -/
theorem claim_C3_witness :
    ("FIFO", fifo) ∈ ALGORITHMS ∧ ([1] : List Page) ≠ [] ∧
    fifo [1] 0 = none ∧ fifo [] 0 = some ⟨0, []⟩ :=
  ⟨by simp [ALGORITHMS], by simp,
    (claim_C3 ("FIFO", fifo) (by simp [ALGORITHMS]) [1]).1 (by simp),
    (claim_C3 ("FIFO", fifo) (by simp [ALGORITHMS]) []).2⟩

/-- C5: for every policy, reference sequence and capacity ≥ 1, the run
returns a result with exactly one step record per reference position (an
empty sequence yields an empty trace), and the fault count equals the
number of step records whose fault flag is true. -/
theorem claim_C5 :
    ∀ (seq : List Page) (cap : Nat), 1 ≤ cap → ∀ nf ∈ ALGORITHMS,
      ∃ r, nf.2 seq cap = some r ∧ r.steps.length = seq.length ∧
        r.faults = r.steps.countP (fun s => s.page_fault) := by
  intro seq cap hcap nf hnf
  simp only [ALGORITHMS, List.mem_cons, List.not_mem_nil, or_false] at hnf
  rcases hnf with rfl | rfl | rfl | rfl | rfl
  · rcases fifo_total seq hcap with ⟨r, hr⟩
    rcases runGo_some _ _ (fifo_some hr) with ⟨ht, hc⟩
    exact ⟨r, hr, ht.length_eq, hc⟩
  · rcases lru_total seq hcap with ⟨r, hr⟩
    rcases runGo_some _ _ (lru_some hr) with ⟨ht, hc⟩
    exact ⟨r, hr, ht.length_eq, hc⟩
  · rcases optimal_total seq hcap with ⟨r, hr⟩
    rcases runGo_some _ _ (optimal_some hr) with ⟨ht, hc⟩
    exact ⟨r, hr, ht.length_eq, hc⟩
  · rcases second_chance_total seq hcap with ⟨r, hr⟩
    rcases runGo_some _ _ (second_chance_some hr) with ⟨ht, hc⟩
    exact ⟨r, hr, ht.length_eq, hc⟩
  · rcases clock_total seq hcap with ⟨r, hr⟩
    rcases runGo_some _ _ (clock_some hr) with ⟨ht, hc⟩
    exact ⟨r, hr, ht.length_eq, hc⟩

/-- Witness for C5: `fifo` on `[1, 2, 1]` with capacity 1. -/
theorem claim_C5_witness :
    (1 : Nat) ≤ 1 ∧ ("FIFO", fifo) ∈ ALGORITHMS ∧
    ∃ r, fifo [1, 2, 1] 1 = some r ∧ r.steps.length = 3 ∧
      r.faults = r.steps.countP (fun s => s.page_fault) :=
  ⟨le_refl 1, by simp [ALGORITHMS],
    claim_C5 [1, 2, 1] 1 (le_refl 1) ("FIFO", fifo) (by simp [ALGORITHMS])⟩

/-- C4: for every policy, sequence and capacity ≥ 1, every step record of
the returned trace has `frames_after` of length at most the capacity and
free of duplicate page identifiers. -/
theorem claim_C4 :
    ∀ (seq : List Page) (cap : Nat), 1 ≤ cap → ∀ nf ∈ ALGORITHMS,
      ∀ r, nf.2 seq cap = some r → ∀ s ∈ r.steps,
        s.frames_after.length ≤ cap ∧ s.frames_after.Nodup := by
  intro seq cap hcap nf hnf
  simp only [ALGORITHMS, List.mem_cons, List.not_mem_nil, or_false] at hnf
  rcases hnf with rfl | rfl | rfl | rfl | rfl <;> intro r h s hs
  · rcases runGo_some _ _ (fifo_some h) with ⟨ht, _⟩
    rcases ht.record_mem listInv_nil fifoStep_pres s hs with
      ⟨s1, s2, p, rest, hP1, hstep, _, _, hafter⟩
    have hP2 := fifoStep_pres s1 p rest s2 _ hP1 hstep
    rw [hafter]
    exact ⟨hP2.2, hP2.1⟩
  · rcases runGo_some _ _ (lru_some h) with ⟨ht, _⟩
    rcases ht.record_mem listInv_nil lruStep_pres s hs with
      ⟨s1, s2, p, rest, hP1, hstep, _, _, hafter⟩
    have hP2 := lruStep_pres s1 p rest s2 _ hP1 hstep
    rw [hafter]
    exact ⟨hP2.2, hP2.1⟩
  · rcases runGo_some _ _ (optimal_some h) with ⟨ht, _⟩
    rcases ht.record_mem listInv_nil optimalStep_pres s hs with
      ⟨s1, s2, p, rest, hP1, hstep, _, _, hafter⟩
    have hP2 := optimalStep_pres s1 p rest s2 _ hP1 hstep
    rw [hafter]
    exact ⟨hP2.2, hP2.1⟩
  · rcases runGo_some _ _ (second_chance_some h) with ⟨ht, _⟩
    rcases ht.record_mem scInv_init (scStep_pres hcap) s hs with
      ⟨s1, s2, p, rest, hP1, hstep, _, _, hafter⟩
    have hP2 := scStep_pres hcap s1 p rest s2 _ hP1 hstep
    rw [hafter]
    exact ⟨hP2.2.1, hP2.1⟩
  · rcases runGo_some _ _ (clock_some h) with ⟨ht, _⟩
    rcases ht.record_mem scInv_init (clockStep_pres hcap) s hs with
      ⟨s1, s2, p, rest, hP1, hstep, _, _, hafter⟩
    have hP2 := clockStep_pres hcap s1 p rest s2 _ hP1 hstep
    rw [hafter]
    exact ⟨hP2.2.1, hP2.1⟩

/-- Witness for C4: `lru` on `[1, 2, 3, 1]` with capacity 2. -/
theorem claim_C4_witness :
    (1 : Nat) ≤ 2 ∧ ("LRU", lru) ∈ ALGORITHMS ∧
    (lru [1, 2, 3, 1] 2 =
      some ⟨4, [⟨1, [], [1], true⟩, ⟨2, [1], [1, 2], true⟩,
                ⟨3, [1, 2], [2, 3], true⟩, ⟨1, [2, 3], [3, 1], true⟩]⟩) ∧
    ∀ s ∈ [⟨1, [], [1], true⟩, ⟨2, [1], [1, 2], true⟩,
           ⟨3, [1, 2], [2, 3], true⟩, (⟨1, [2, 3], [3, 1], true⟩ : Step)],
      s.frames_after.length ≤ 2 ∧ s.frames_after.Nodup := by
  refine ⟨by omega, by simp [ALGORITHMS], by rfl, ?_⟩
  exact claim_C4 [1, 2, 3, 1] 2 (by omega) ("LRU", lru) (by simp [ALGORITHMS])
    _ (by rfl)

/-- C9: `second_chance` and `clock` return identical run results on every
reference sequence and capacity ≥ 1 (the wrap modulus differs only in the
full-fault branch, where the frame count equals the configured capacity). -/
theorem claim_C9 (seq : List Page) (cap : Nat) (hcap : 1 ≤ cap) :
    second_chance seq cap = clock seq cap := by
  unfold second_chance clock
  rw [@runGo_congr SCState (scStep cap) SCState.frames (clockStep cap) (SCInv cap)
    scStep_eq_clockStep (scStep_pres hcap) seq ⟨[], [], 0⟩ scInv_init]

/-- Witness for C9: the two policies agree on `[1, 2, 1, 3, 2]` with
capacity 2. -/
theorem claim_C9_witness :
    (1 : Nat) ≤ 2 ∧ second_chance [1, 2, 1, 3, 2] 2 = clock [1, 2, 1, 3, 2] 2 :=
  ⟨by omega, claim_C9 [1, 2, 1, 3, 2] 2 (by omega)⟩

theorem mem_erase_append_self {frames : List Page} {p : Page} (hp : p ∈ frames) :
    ∀ x, x ∈ frames.erase p ++ [p] ↔ x ∈ frames := by
  intro x
  by_cases hx : x = p
  · subst hx
    simp [hp]
  · simp [List.mem_append, List.mem_erase_of_ne hx, hx]

theorem firstIdx_get {l : List Page} {x : Page} {i : Nat}
    (h : firstIdx l x = some i) (hi : i < l.length) : l.get ⟨i, hi⟩ = x := by
  have := firstIdx_getElem? h
  rw [List.getElem?_eq_getElem hi] at this
  simpa using this

/-- C6: on every hit (a step whose fault flag is false), `fifo` and
`optimal` leave the frame list exactly unchanged, while `lru`,
`second_chance` and `clock` preserve the set of resident pages (order and
reference bits may differ). -/
theorem claim_C6 :
    ∀ (seq : List Page) (cap : Nat), 1 ≤ cap →
      (∀ r, fifo seq cap = some r → ∀ s ∈ r.steps, s.page_fault = false →
        s.frames_after = s.frames_before) ∧
      (∀ r, optimal seq cap = some r → ∀ s ∈ r.steps, s.page_fault = false →
        s.frames_after = s.frames_before) ∧
      (∀ r, lru seq cap = some r → ∀ s ∈ r.steps, s.page_fault = false →
        ∀ x, x ∈ s.frames_after ↔ x ∈ s.frames_before) ∧
      (∀ r, second_chance seq cap = some r → ∀ s ∈ r.steps, s.page_fault = false →
        ∀ x, x ∈ s.frames_after ↔ x ∈ s.frames_before) ∧
      (∀ r, clock seq cap = some r → ∀ s ∈ r.steps, s.page_fault = false →
        ∀ x, x ∈ s.frames_after ↔ x ∈ s.frames_before) := by
  intro seq cap _
  refine ⟨?_, ?_, ?_, ?_, ?_⟩ <;> intro r h s hs hfault
  · rcases runGo_some _ _ (fifo_some h) with ⟨ht, _⟩
    rcases ht.record_mem (P := fun _ => True) trivial
      (fun _ _ _ _ _ _ _ => trivial) s hs with
      ⟨s1, s2, p, rest, _, hstep, _, hbefore, hafter⟩
    rcases fifoStep_cases hstep with ⟨_, _, rfl⟩ | ⟨hf, _, _, _⟩ | ⟨hf, _, _, _⟩
    · rw [hbefore, hafter]
    · rw [hfault] at hf; cases hf
    · rw [hfault] at hf; cases hf
  · rcases runGo_some _ _ (optimal_some h) with ⟨ht, _⟩
    rcases ht.record_mem (P := fun _ => True) trivial
      (fun _ _ _ _ _ _ _ => trivial) s hs with
      ⟨s1, s2, p, rest, _, hstep, _, hbefore, hafter⟩
    rcases optimalStep_cases hstep with ⟨_, _, rfl⟩ | ⟨hf, _, _, _⟩ | ⟨hf, _, _, _⟩
    · rw [hbefore, hafter]
    · rw [hfault] at hf; cases hf
    · rw [hfault] at hf; cases hf
  · rcases runGo_some _ _ (lru_some h) with ⟨ht, _⟩
    rcases ht.record_mem (P := fun _ => True) trivial
      (fun _ _ _ _ _ _ _ => trivial) s hs with
      ⟨s1, s2, p, rest, _, hstep, _, hbefore, hafter⟩
    rcases lruStep_cases hstep with ⟨_, hp, rfl⟩ | ⟨hf, _, _, _⟩ | ⟨hf, _, _, _⟩
    · rw [hbefore, hafter]
      exact mem_erase_append_self hp
    · rw [hfault] at hf; cases hf
    · rw [hfault] at hf; cases hf
  · rcases runGo_some _ _ (second_chance_some h) with ⟨ht, _⟩
    rcases ht.record_mem (P := fun _ => True) trivial
      (fun _ _ _ _ _ _ _ => trivial) s hs with
      ⟨s1, s2, p, rest, _, hstep, _, hbefore, hafter⟩
    rcases scStep_cases hstep with ⟨_, _, i, _, rfl⟩ | ⟨hf, _, _, _⟩ | ⟨hf, _, _, _⟩
    · rw [hbefore, hafter]
      intro x
      rfl
    · rw [hfault] at hf; cases hf
    · rw [hfault] at hf; cases hf
  · rcases runGo_some _ _ (clock_some h) with ⟨ht, _⟩
    rcases ht.record_mem (P := fun _ => True) trivial
      (fun _ _ _ _ _ _ _ => trivial) s hs with
      ⟨s1, s2, p, rest, _, hstep, _, hbefore, hafter⟩
    rcases clockStep_cases hstep with ⟨_, _, i, _, rfl⟩ | ⟨hf, _, _, _⟩ | ⟨hf, _, _, _⟩
    · rw [hbefore, hafter]
      intro x
      rfl
    · rw [hfault] at hf; cases hf
    · rw [hfault] at hf; cases hf

/-- Witness for C6: `lru` on `[1, 2, 1]` with capacity 2 (the third step
is a hit). -/
theorem claim_C6_witness :
    (1 : Nat) ≤ 2 ∧
    (lru [1, 2, 1] 2 = some ⟨2, [⟨1, [], [1], true⟩, ⟨2, [1], [1, 2], true⟩,
      ⟨1, [1, 2], [2, 1], false⟩]⟩) ∧
    ∀ x, x ∈ ([2, 1] : List Page) ↔ x ∈ ([1, 2] : List Page) := by
  refine ⟨by omega, by rfl, ?_⟩
  exact (claim_C6 [1, 2, 1] 2 (by omega)).2.2.1 _ (by rfl)
    ⟨1, [1, 2], [2, 1], false⟩ (by simp) rfl

/-- C10: for `optimal`, `second_chance` and `clock`, on every fault that
occurs when the frames are full, the evicted page's slot is overwritten in
place: `frames_after` is `frames_before` with exactly one position set to
the new page, and that position previously held a different page (so every
other slot keeps its page and its position). -/
theorem claim_C10 :
    ∀ (seq : List Page) (cap : Nat), 1 ≤ cap →
      (∀ r, optimal seq cap = some r → ∀ s ∈ r.steps, s.page_fault = true →
        s.frames_before.length = cap →
        ∃ j : Fin s.frames_before.length,
          s.frames_after = s.frames_before.set j.1 s.page ∧
          s.frames_before.get j ≠ s.page) ∧
      (∀ r, second_chance seq cap = some r → ∀ s ∈ r.steps, s.page_fault = true →
        s.frames_before.length = cap →
        ∃ j : Fin s.frames_before.length,
          s.frames_after = s.frames_before.set j.1 s.page ∧
          s.frames_before.get j ≠ s.page) ∧
      (∀ r, clock seq cap = some r → ∀ s ∈ r.steps, s.page_fault = true →
        s.frames_before.length = cap →
        ∃ j : Fin s.frames_before.length,
          s.frames_after = s.frames_before.set j.1 s.page ∧
          s.frames_before.get j ≠ s.page) := by
  intro seq cap hcap
  refine ⟨?_, ?_, ?_⟩ <;> intro r h s hs hfault hlen
  · rcases runGo_some _ _ (optimal_some h) with ⟨ht, _⟩
    rcases ht.record_mem listInv_nil optimalStep_pres s hs with
      ⟨s1, s2, p, rest, hP1, hstep, hpage, hbefore, hafter⟩
    simp only [id] at hbefore hafter
    rcases optimalStep_cases hstep with ⟨hf, _, _⟩ | ⟨_, _, hlt, _⟩ |
      ⟨_, hp, _, v, i, hsel, hidx, rfl⟩
    · rw [hfault] at hf; cases hf
    · rw [hbefore] at hlen; omega
    · have hi : i < s1.length := firstIdx_lt_length hidx
      have hmem : v ∈ s1 := (selectVictim_eq_some hsel).2
      rw [hafter, hbefore, hpage]
      refine ⟨⟨i, hi⟩, rfl, ?_⟩
      rw [firstIdx_get hidx hi]
      intro hc
      exact hp (hc ▸ hmem)
  · rcases runGo_some _ _ (second_chance_some h) with ⟨ht, _⟩
    rcases ht.record_mem scInv_init (scStep_pres hcap) s hs with
      ⟨s1, s2, p, rest, hP1, hstep, hpage, hbefore, hafter⟩
    rcases scStep_cases hstep with ⟨hf, _, _⟩ | ⟨_, _, hlt, _⟩ |
      ⟨_, hp, hfull, bits2, ptr2, hsw, rfl⟩
    · rw [hfault] at hf; cases hf
    · rw [hbefore] at hlen; omega
    · rcases hP1 with ⟨hn, hle, hbits, hptr⟩
      have hfcap : s1.frames.length = cap := by rw [← hbefore]; exact hlen
      have hbcap : s1.ref_bits.length = cap := by omega
      have hpcap : s1.pointer < cap := by
        rcases hptr with h0 | ⟨_, hlt'⟩
        · omega
        · exact hlt'
      rcases sweep_success hbcap hpcap with ⟨bits2', ptr2', hsw', _, hptr2'⟩
      rw [hsw] at hsw'
      obtain ⟨rfl, rfl⟩ : bits2 = bits2' ∧ ptr2 = ptr2' := by simpa using hsw'
      have hp2 : ptr2 < s1.frames.length := by omega
      dsimp only at hafter
      rw [hafter, hbefore, hpage]
      refine ⟨⟨ptr2, hp2⟩, rfl, ?_⟩
      intro hc
      exact hp (hc ▸ List.get_mem s1.frames ptr2 hp2)
  · rcases runGo_some _ _ (clock_some h) with ⟨ht, _⟩
    rcases ht.record_mem scInv_init (clockStep_pres hcap) s hs with
      ⟨s1, s2, p, rest, hP1, hstep, hpage, hbefore, hafter⟩
    rcases clockStep_cases hstep with ⟨hf, _, _⟩ | ⟨_, _, hlt, _⟩ |
      ⟨_, hp, hfull, bits2, ptr2, hsw, rfl⟩
    · rw [hfault] at hf; cases hf
    · rw [hbefore] at hlen; omega
    · rcases hP1 with ⟨hn, hle, hbits, hptr⟩
      have hfcap : s1.frames.length = cap := by rw [← hbefore]; exact hlen
      have hbfr : s1.ref_bits.length = s1.frames.length := hbits
      have hpfr : s1.pointer < s1.frames.length := by
        rcases hptr with h0 | ⟨_, hlt'⟩
        · omega
        · omega
      rcases sweep_success hbfr hpfr with ⟨bits2', ptr2', hsw', _, hptr2'⟩
      rw [hsw] at hsw'
      obtain ⟨rfl, rfl⟩ : bits2 = bits2' ∧ ptr2 = ptr2' := by simpa using hsw'
      have hp2 : ptr2 < s1.frames.length := hptr2'
      dsimp only at hafter
      rw [hafter, hbefore, hpage]
      refine ⟨⟨ptr2, hp2⟩, rfl, ?_⟩
      intro hc
      exact hp (hc ▸ List.get_mem s1.frames ptr2 hp2)

/-- Witness for C10: the fourth step of `optimal` on the C1 sequence with
capacity 3 is a full-frame fault replacing page 3 in place. -/
theorem claim_C10_witness :
    (1 : Nat) ≤ 3 ∧
    ∃ j : Fin ([1, 2, 3] : List Page).length,
      ([1, 2, 4] : List Page) = ([1, 2, 3] : List Page).set j.1 4 ∧
      ([1, 2, 3] : List Page).get j ≠ 4 := by
  refine ⟨by omega, ?_⟩
  have h := (claim_C10 [1, 2, 3, 4, 1, 2, 5, 1, 2, 3, 4, 5] 3 (by omega)).1
  exact h ⟨7, [⟨1, [], [1], true⟩, ⟨2, [1], [1, 2], true⟩,
      ⟨3, [1, 2], [1, 2, 3], true⟩, ⟨4, [1, 2, 3], [1, 2, 4], true⟩,
      ⟨1, [1, 2, 4], [1, 2, 4], false⟩, ⟨2, [1, 2, 4], [1, 2, 4], false⟩,
      ⟨5, [1, 2, 4], [1, 2, 5], true⟩, ⟨1, [1, 2, 5], [1, 2, 5], false⟩,
      ⟨2, [1, 2, 5], [1, 2, 5], false⟩, ⟨3, [1, 2, 5], [3, 2, 5], true⟩,
      ⟨4, [3, 2, 5], [4, 2, 5], true⟩, ⟨5, [4, 2, 5], [4, 2, 5], false⟩]⟩
    rfl ⟨4, [1, 2, 3], [1, 2, 4], true⟩ (by simp) rfl rfl

/-- C7: in `optimal`, on every fault occurring when the frames are full,
the evicted page is the resident page whose next occurrence in the strict
suffix after the current position is furthest away (no future occurrence
counting as infinitely distant), ties broken in favor of the first such
page in current frame storage order; it is replaced in place by the
referenced page. -/
theorem claim_C7 :
    ∀ (seq : List Page) (cap : Nat), 1 ≤ cap → ∀ r, optimal seq cap = some r →
      ∀ i (hi : i < r.steps.length),
        (r.steps.get ⟨i, hi⟩).page_fault = true →
        (r.steps.get ⟨i, hi⟩).frames_before.length = cap →
        ∃ v j,
          IsFirstFarthest (seq.drop (i + 1)) (r.steps.get ⟨i, hi⟩).frames_before v ∧
          firstIdx (r.steps.get ⟨i, hi⟩).frames_before v = some j ∧
          (r.steps.get ⟨i, hi⟩).frames_after =
            (r.steps.get ⟨i, hi⟩).frames_before.set j (r.steps.get ⟨i, hi⟩).page := by
  intro seq cap hcap r h i hi hfault hlen
  rcases runGo_some _ _ (optimal_some h) with ⟨ht, _⟩
  have hl : i < seq.length := by rw [← ht.length_eq]; exact hi
  rcases ht.record_get listInv_nil optimalStep_pres i hi hl with
    ⟨s1, s2, hP1, hstep, hpage, hbefore, hafter⟩
  simp only [id] at hbefore hafter
  rcases optimalStep_cases hstep with ⟨hf, _, _⟩ | ⟨_, _, hlt, _⟩ |
    ⟨_, hp, _, v, j, hsel, hidx, rfl⟩
  · rw [hfault] at hf; cases hf
  · rw [hbefore] at hlen; omega
  · refine ⟨v, j, ?_, ?_, ?_⟩
    · rw [hbefore]
      exact (selectVictim_eq_some hsel).1
    · rw [hbefore]
      exact hidx
    · rw [hafter, hbefore, hpage]

/-- Witness for C7: the tenth step of `optimal` on the C1 sequence with
capacity 3.  Page 3 arrives with frames `[1, 2, 5]` full; neither 1 nor 2
occurs in the remaining suffix `[4, 5]`, so the tie on infinite distance
is broken in favor of page 1, the first in frame order. -/
theorem claim_C7_witness :
    ∃ v j, IsFirstFarthest [4, 5] [1, 2, 5] v ∧
      firstIdx [1, 2, 5] v = some j ∧
      ([3, 2, 5] : List Page) = ([1, 2, 5] : List Page).set j 3 := by
  have h := claim_C7 [1, 2, 3, 4, 1, 2, 5, 1, 2, 3, 4, 5] 3 (by omega)
    ⟨7, [⟨1, [], [1], true⟩, ⟨2, [1], [1, 2], true⟩,
      ⟨3, [1, 2], [1, 2, 3], true⟩, ⟨4, [1, 2, 3], [1, 2, 4], true⟩,
      ⟨1, [1, 2, 4], [1, 2, 4], false⟩, ⟨2, [1, 2, 4], [1, 2, 4], false⟩,
      ⟨5, [1, 2, 4], [1, 2, 5], true⟩, ⟨1, [1, 2, 5], [1, 2, 5], false⟩,
      ⟨2, [1, 2, 5], [1, 2, 5], false⟩, ⟨3, [1, 2, 5], [3, 2, 5], true⟩,
      ⟨4, [3, 2, 5], [4, 2, 5], true⟩, ⟨5, [4, 2, 5], [4, 2, 5], false⟩]⟩
    rfl 9 (by simp) rfl rfl
  exact h

/-- C8: one step of `second_chance`, from any state satisfying the run
invariant.  On a hit the referenced page's bit is set to 1 with no
reordering and the persistent pointer is untouched.  On a fault when the
frames are full, the sweep starts at the persistent pointer; every page it
passes had reference bit 1 and gets it cleared, the pointer wrapping
modulo the configured capacity; it stops at the first page with reference
bit 0 (after a full cycle of clears it stops where it started), replaces
that page with the new one, sets its bit to 1, and advances the pointer
once more.  `firstZeroOff st.ref_bits st.pointer` is the cyclic offset at
which the sweep stops. -/
theorem claim_C8 :
    ∀ (cap : Nat) (st : SCState) (p : Page) (future : List Page)
      (st2 : SCState) (f : Bool), SCInv cap st → 1 ≤ cap →
      scStep cap st p future = some (st2, f) →
      (p ∈ st.frames →
        f = false ∧ st2.frames = st.frames ∧ st2.pointer = st.pointer ∧
        ∃ i, firstIdx st.frames p = some i ∧
          st2.ref_bits = st.ref_bits.set i 1) ∧
      (p ∉ st.frames → st.frames.length = cap →
        f = true ∧
        (∀ k, k < firstZeroOff st.ref_bits st.pointer →
          st.ref_bits.getD ((st.pointer + k) % cap) 1 ≠ 0) ∧
        (firstZeroOff st.ref_bits st.pointer = cap ∨
          (firstZeroOff st.ref_bits st.pointer < cap ∧
           st.ref_bits.getD
             ((st.pointer + firstZeroOff st.ref_bits st.pointer) % cap) 1 = 0)) ∧
        st2.frames = st.frames.set
          ((st.pointer + firstZeroOff st.ref_bits st.pointer) % cap) p ∧
        st2.pointer =
          ((st.pointer + firstZeroOff st.ref_bits st.pointer) % cap + 1) % cap ∧
        st2.ref_bits.getD
          ((st.pointer + firstZeroOff st.ref_bits st.pointer) % cap) 1 = 1 ∧
        (∀ m, m < cap →
          m ≠ (st.pointer + firstZeroOff st.ref_bits st.pointer) % cap →
          st2.ref_bits.getD m 1 =
            (if ∃ k, k < firstZeroOff st.ref_bits st.pointer ∧
                (st.pointer + k) % cap = m
             then 0 else st.ref_bits.getD m 1))) := by
  intro cap st p future st2 f hinv hcap hstep
  rcases hinv with ⟨hn, hle, hbits, hptr⟩
  constructor
  · intro hp
    rcases scStep_cases hstep with ⟨hf, _, i, hidx, rfl⟩ | ⟨_, hp', _, _⟩ |
      ⟨_, hp', _, _⟩
    · exact ⟨hf, rfl, rfl, i, hidx, rfl⟩
    · exact absurd hp hp'
    · exact absurd hp hp'
  · intro hp hfull
    rcases scStep_cases hstep with ⟨_, hp', _⟩ | ⟨_, _, hlt, _⟩ |
      ⟨hf, _, _, bits2, ptr2, hsw, rfl⟩
    · exact absurd hp' hp
    · omega
    · have hbcap : st.ref_bits.length = cap := by omega
      have hpcap : st.pointer < cap := by
        rcases hptr with h0 | ⟨_, hlt'⟩
        · omega
        · exact hlt'
      set k0 := firstZeroOff st.ref_bits st.pointer with hk0
      have hk0le : k0 ≤ cap := by
        rw [hk0, ← hbcap]
        exact firstZeroOff_le st.ref_bits st.pointer
      rcases sweep_spec k0 st.ref_bits st.pointer (st.ref_bits.length + 1) cap
        hbcap hpcap rfl (by omega) with ⟨bits3, hsw', hlen3, hdesc⟩
      rw [hsw] at hsw'
      obtain ⟨rfl, rfl⟩ : bits2 = bits3 ∧ ptr2 = (st.pointer + k0) % cap := by
        simpa using hsw'
      have hjcap : (st.pointer + k0) % cap < cap := Nat.mod_lt _ (by omega)
      refine ⟨hf, ?_, ?_, rfl, rfl, ?_, ?_⟩
      · intro k hk
        have := firstZeroOff_pos_before k (hk0 ▸ hk)
        rw [hbcap] at this
        exact this
      · rcases Nat.lt_or_ge k0 cap with hlt' | hge
        · right
          refine ⟨hlt', ?_⟩
          have := firstZeroOff_zero_at (by rw [← hk0, hbcap]; exact hlt')
          rw [hbcap, ← hk0] at this
          exact this
        · left
          omega
      · show (bits2.set ((st.pointer + k0) % cap) 1).getD ((st.pointer + k0) % cap) 1 = 1
        exact getD_set_self (by omega) 1 1
      · intro m hm hmj
        show (bits2.set ((st.pointer + k0) % cap) 1).getD m 1 = _
        rw [getD_set_ne (fun hc => hmj hc.symm) 1 1]
        exact hdesc m hm

/-- Witness for C8: from the full state `⟨[5, 6], [1, 0], 0⟩` with
capacity 2, referencing page 7: the sweep clears the bit of page 5,
stops on page 6 (offset 1), replaces it, sets its bit, and advances the
pointer. -/
theorem claim_C8_witness :
    SCInv 2 ⟨[5, 6], [1, 0], 0⟩ ∧ (1 : Nat) ≤ 2 ∧
    scStep 2 ⟨[5, 6], [1, 0], 0⟩ 7 [] = some (⟨[5, 7], [0, 1], 0⟩, true) ∧
    (⟨[5, 7], [0, 1], 0⟩ : SCState).frames =
      ([5, 6] : List Page).set ((0 + firstZeroOff [1, 0] 0) % 2) 7 ∧
    (⟨[5, 7], [0, 1], 0⟩ : SCState).pointer =
      ((0 + firstZeroOff [1, 0] 0) % 2 + 1) % 2 := by
  have hinv : SCInv 2 ⟨[5, 6], [1, 0], 0⟩ :=
    ⟨by decide, by decide, by decide, Or.inl rfl⟩
  have hstep : scStep 2 ⟨[5, 6], [1, 0], 0⟩ 7 [] =
      some (⟨[5, 7], [0, 1], 0⟩, true) := by rfl
  have h := (claim_C8 2 ⟨[5, 6], [1, 0], 0⟩ 7 [] ⟨[5, 7], [0, 1], 0⟩ true
    hinv (by omega) hstep).2 (by decide) rfl
  exact ⟨hinv, by omega, hstep, h.2.2.2.1, h.2.2.2.2.1⟩

/-! ### The optimality of `optimal` (claim C2)

`OPT cap C σ` is the best possible demand-paging fault count from cache
`C`.  The classical exchange lemmas are proved by induction on the
reference suffix: a larger cache is never worse (`OPT_subset`), removing a
page costs at most one fault (`OPT_erase`), swapping one resident page
for another costs at most one fault (`OPT_swap`), and swapping in a page
that is referenced no later than the page it replaces never costs
anything (`OPT_ordered_swap`).  The farthest-next-use choice of
`optimal` then achieves `OPT`, and every policy's fault count is at least
`OPT`. -/

theorem OPT_nil (cap : Nat) (C : Finset Page) : OPT cap C [] = 0 := rfl

theorem OPT_hit {cap : Nat} {C : Finset Page} {q : Page} {σ : List Page}
    (h : q ∈ C) : OPT cap C (q :: σ) = OPT cap C σ := by
  rw [OPT, if_pos h]

theorem OPT_fill {cap : Nat} {C : Finset Page} {q : Page} {σ : List Page}
    (h1 : q ∉ C) (h2 : C.card < cap) :
    OPT cap C (q :: σ) = 1 + OPT cap (insert q C) σ := by
  rw [OPT, if_neg h1, if_pos h2]

theorem OPT_full {cap : Nat} {C : Finset Page} {q : Page} {σ : List Page}
    (h1 : q ∉ C) (h2 : ¬ C.card < cap) (h : C.Nonempty) :
    OPT cap C (q :: σ) =
      1 + C.inf' h (fun a => OPT cap (insert q (C.erase a)) σ) := by
  rw [OPT, if_neg h1, if_neg h2, dif_pos h]

theorem OPT_subset (cap : Nat) :
    ∀ (σ : List Page) (C C' : Finset Page), C ⊆ C' → C'.card ≤ cap →
      OPT cap C' σ ≤ OPT cap C σ := by
  intro σ
  induction σ with
  | nil => intro C C' _ _; simp [OPT_nil]
  | cons q σ ih =>
    intro C C' hsub hcard
    by_cases hCC : C = C'
    · subst hCC
      exact le_refl _
    have hssub : C ⊂ C' := Finset.ssubset_iff_subset_ne.2 ⟨hsub, hCC⟩
    have hcC : C.card < C'.card := Finset.card_lt_card hssub
    by_cases hq : q ∈ C
    · have hq' : q ∈ C' := hsub hq
      rw [OPT_hit hq, OPT_hit hq']
      exact ih C C' hsub hcard
    · by_cases hq' : q ∈ C'
      · rw [OPT_hit hq', OPT_fill hq (by omega)]
        have := ih (insert q C) C' (Finset.insert_subset_iff.2 ⟨hq', hsub⟩) hcard
        omega
      · by_cases h2 : C'.card < cap
        · rw [OPT_fill hq' h2, OPT_fill hq (by omega)]
          have := ih (insert q C) (insert q C')
            (Finset.insert_subset_insert q hsub)
            (by rw [Finset.card_insert_of_not_mem hq']; omega)
          omega
        · have hne' : C'.Nonempty := by
            rw [← Finset.card_pos]
            omega
          rw [OPT_full hq' h2 hne', OPT_fill hq (by omega)]
          obtain ⟨w0, hw0C', hw0C⟩ : ∃ w, w ∈ C' ∧ w ∉ C := by
            rcases Finset.exists_of_ssubset hssub with ⟨x, hx1, hx2⟩
            exact ⟨x, hx1, hx2⟩
          have hinf : C'.inf' hne' (fun a => OPT cap (insert q (C'.erase a)) σ) ≤
              OPT cap (insert q (C'.erase w0)) σ := Finset.inf'_le _ hw0C'
          have hih : OPT cap (insert q (C'.erase w0)) σ ≤
              OPT cap (insert q C) σ := by
            apply ih
            · exact Finset.insert_subset_insert q
                (fun x hx => Finset.mem_erase.2 ⟨fun hc => hw0C (hc ▸ hx), hsub hx⟩)
            · rw [Finset.card_insert_of_not_mem
                (fun hc => hq' (Finset.mem_erase.1 hc).2),
                Finset.card_erase_of_mem hw0C']
              omega
          omega

theorem OPT_swap_erase (cap : Nat) :
    ∀ σ : List Page,
      (∀ (U : Finset Page) (a b : Page), a ∉ U → b ∉ U → U.card + 1 ≤ cap →
        OPT cap (insert a U) σ ≤ OPT cap (insert b U) σ + 1) ∧
      (∀ (C : Finset Page) (y : Page), y ∈ C → C.card ≤ cap →
        OPT cap (C.erase y) σ ≤ OPT cap C σ + 1) := by
  intro σ
  induction σ with
  | nil =>
    exact ⟨fun _ _ _ _ _ _ => by simp [OPT_nil],
      fun _ _ _ _ => by simp [OPT_nil]⟩
  | cons q σ ih =>
    obtain ⟨ihswap, iherase⟩ := ih
    constructor
    · intro U a b ha hb hcard
      by_cases hab : a = b
      · subst hab
        omega
      have hcardA : (insert a U).card = U.card + 1 :=
        Finset.card_insert_of_not_mem ha
      have hcardB : (insert b U).card = U.card + 1 :=
        Finset.card_insert_of_not_mem hb
      by_cases hqU : q ∈ U
      · rw [OPT_hit (Finset.mem_insert_of_mem hqU),
          OPT_hit (Finset.mem_insert_of_mem hqU)]
        exact ihswap U a b ha hb hcard
      · by_cases hqa : q = a
        · subst hqa
          rw [OPT_hit (Finset.mem_insert_self q U)]
          have hqB : q ∉ insert b U := by simp [hab, hqU]
          by_cases h2 : (insert b U).card < cap
          · rw [OPT_fill hqB h2]
            have herase : (insert q (insert b U)).erase b = insert q U := by
              rw [Finset.erase_insert_of_ne hab, Finset.erase_insert hb]
            have h3 := iherase (insert q (insert b U)) b
              (Finset.mem_insert_of_mem (Finset.mem_insert_self b U))
              (by rw [Finset.card_insert_of_not_mem hqB]; omega)
            rw [herase] at h3
            omega
          · have hneB : (insert b U).Nonempty := ⟨b, Finset.mem_insert_self b U⟩
            rw [OPT_full hqB h2 hneB]
            obtain ⟨v, hv, hve⟩ := Finset.exists_mem_eq_inf' hneB
              (fun w => OPT cap (insert q ((insert b U).erase w)) σ)
            rw [hve]
            rcases Finset.mem_insert.1 hv with rfl | hvU
            · rw [Finset.erase_insert hb]
              omega
            · have hbv : b ≠ v := fun hc => hb (hc ▸ hvU)
              rw [Finset.erase_insert_of_ne hbv]
              have hU : insert q U = insert v (insert q (U.erase v)) := by
                rw [Finset.Insert.comm, Finset.insert_erase hvU]
              rw [hU, Finset.Insert.comm q b]
              have hvW : v ∉ insert q (U.erase v) := by
                intro hc
                rcases Finset.mem_insert.1 hc with h | h
                · exact hqU (h ▸ hvU)
                · exact Finset.not_mem_erase v U h
              have hbW : b ∉ insert q (U.erase v) := by
                intro hc
                rcases Finset.mem_insert.1 hc with h | h
                · exact hab h.symm
                · exact hb (Finset.mem_of_mem_erase h)
              have hcW : (insert q (U.erase v)).card + 1 ≤ cap := by
                rw [Finset.card_insert_of_not_mem
                  (fun hc => hqU (Finset.mem_of_mem_erase hc)),
                  Finset.card_erase_of_mem hvU]
                have := Finset.card_pos.2 ⟨v, hvU⟩
                omega
              have := ihswap (insert q (U.erase v)) v b hvW hbW hcW
              omega
        · by_cases hqb : q = b
          · subst hqb
            have hqA : q ∉ insert a U := by
              intro hc
              rcases Finset.mem_insert.1 hc with h | h
              · exact hqa h
              · exact hqU h
            rw [OPT_hit (Finset.mem_insert_self q U)]
            by_cases h2 : (insert a U).card < cap
            · rw [OPT_fill hqA h2]
              have hsub : insert q U ⊆ insert q (insert a U) :=
                Finset.insert_subset_insert q (Finset.subset_insert a U)
              have hc2 : (insert q (insert a U)).card ≤ cap := by
                rw [Finset.card_insert_of_not_mem hqA]
                omega
              have := OPT_subset cap σ (insert q U) (insert q (insert a U))
                hsub hc2
              omega
            · have hneA : (insert a U).Nonempty := ⟨a, Finset.mem_insert_self a U⟩
              rw [OPT_full hqA h2 hneA]
              have hinf := Finset.inf'_le
                (fun w => OPT cap (insert q ((insert a U).erase w)) σ)
                (Finset.mem_insert_self a U)
              rw [Finset.erase_insert ha] at hinf
              omega
          · have hqA : q ∉ insert a U := by
              intro hc
              rcases Finset.mem_insert.1 hc with h | h
              · exact hqa h
              · exact hqU h
            have hqB : q ∉ insert b U := by
              intro hc
              rcases Finset.mem_insert.1 hc with h | h
              · exact hqb h
              · exact hqU h
            by_cases h2 : U.card + 1 < cap
            · rw [OPT_fill hqA (by omega), OPT_fill hqB (by omega),
                Finset.Insert.comm q a, Finset.Insert.comm q b]
              have haq : a ∉ insert q U := by
                intro hc
                rcases Finset.mem_insert.1 hc with h | h
                · exact hqa h.symm
                · exact ha h
              have hbq : b ∉ insert q U := by
                intro hc
                rcases Finset.mem_insert.1 hc with h | h
                · exact hqb h.symm
                · exact hb h
              have := ihswap (insert q U) a b haq hbq
                (by rw [Finset.card_insert_of_not_mem hqU]; omega)
              omega
            · have hneA : (insert a U).Nonempty := ⟨a, Finset.mem_insert_self a U⟩
              have hneB : (insert b U).Nonempty := ⟨b, Finset.mem_insert_self b U⟩
              rw [OPT_full hqA (by omega) hneA, OPT_full hqB (by omega) hneB]
              obtain ⟨v, hv, hve⟩ := Finset.exists_mem_eq_inf' hneB
                (fun w => OPT cap (insert q ((insert b U).erase w)) σ)
              rw [hve]
              rcases Finset.mem_insert.1 hv with rfl | hvU
              · have hinf := Finset.inf'_le
                  (fun w => OPT cap (insert q ((insert a U).erase w)) σ)
                  (Finset.mem_insert_self a U)
                rw [Finset.erase_insert ha] at hinf
                rw [Finset.erase_insert hb]
                omega
              · have hinf := Finset.inf'_le
                  (fun w => OPT cap (insert q ((insert a U).erase w)) σ)
                  (Finset.mem_insert_of_mem hvU : v ∈ insert a U)
                have hav : a ≠ v := fun hc => ha (hc ▸ hvU)
                have hbv : b ≠ v := fun hc => hb (hc ▸ hvU)
                rw [Finset.erase_insert_of_ne hav, Finset.Insert.comm q a] at hinf
                rw [Finset.erase_insert_of_ne hbv, Finset.Insert.comm q b]
                have haW : a ∉ insert q (U.erase v) := by
                  intro hc
                  rcases Finset.mem_insert.1 hc with h | h
                  · exact hqa h.symm
                  · exact ha (Finset.mem_of_mem_erase h)
                have hbW : b ∉ insert q (U.erase v) := by
                  intro hc
                  rcases Finset.mem_insert.1 hc with h | h
                  · exact hqb h.symm
                  · exact hb (Finset.mem_of_mem_erase h)
                have hcW : (insert q (U.erase v)).card + 1 ≤ cap := by
                  rw [Finset.card_insert_of_not_mem
                    (fun hc => hqU (Finset.mem_of_mem_erase hc)),
                    Finset.card_erase_of_mem hvU]
                  have := Finset.card_pos.2 ⟨v, hvU⟩
                  omega
                have := ihswap (insert q (U.erase v)) a b haW hbW hcW
                omega
    · intro C y hy hcard
      by_cases hqA : q ∈ C.erase y
      · rw [OPT_hit hqA, OPT_hit (Finset.mem_of_mem_erase hqA)]
        exact iherase C y hy hcard
      · have hCpos : 0 < C.card := Finset.card_pos.2 ⟨y, hy⟩
        have hcA : (C.erase y).card < cap := by
          rw [Finset.card_erase_of_mem hy]
          omega
        by_cases hqy : q = y
        · subst hqy
          rw [OPT_hit hy, OPT_fill hqA hcA, Finset.insert_erase hy]
          omega
        · have hqC : q ∉ C := fun hc => hqA (Finset.mem_erase.2 ⟨hqy, hc⟩)
          rw [OPT_fill hqA hcA]
          by_cases h2 : C.card < cap
          · rw [OPT_fill hqC h2]
            have herase : insert q (C.erase y) = (insert q C).erase y :=
              (Finset.erase_insert_of_ne hqy).symm
            rw [herase]
            have := iherase (insert q C) y (Finset.mem_insert_of_mem hy)
              (by rw [Finset.card_insert_of_not_mem hqC]; omega)
            omega
          · have hneC : C.Nonempty := ⟨y, hy⟩
            rw [OPT_full hqC h2 hneC]
            obtain ⟨v, hv, hve⟩ := Finset.exists_mem_eq_inf' hneC
              (fun w => OPT cap (insert q (C.erase w)) σ)
            rw [hve]
            by_cases hvy : v = y
            · subst hvy
              omega
            · have hv1 : v ∈ C.erase y := Finset.mem_erase.2 ⟨hvy, hv⟩
              have hy1 : y ∈ C.erase v :=
                Finset.mem_erase.2 ⟨fun hc => hvy hc.symm, hy⟩
              have e1 : insert q (C.erase y) =
                  insert v (insert q ((C.erase y).erase v)) := by
                rw [Finset.Insert.comm, Finset.insert_erase hv1]
              have e2 : insert q (C.erase v) =
                  insert y (insert q ((C.erase v).erase y)) := by
                rw [Finset.Insert.comm, Finset.insert_erase hy1]
              have e3 : (C.erase v).erase y = (C.erase y).erase v :=
                Finset.erase_right_comm
              rw [e1, e2, e3]
              have hvW : v ∉ insert q ((C.erase y).erase v) := by
                intro hc
                rcases Finset.mem_insert.1 hc with h | h
                · exact hqC (h ▸ hv)
                · exact Finset.not_mem_erase v _ h
              have hyW : y ∉ insert q ((C.erase y).erase v) := by
                intro hc
                rcases Finset.mem_insert.1 hc with h | h
                · exact hqy h.symm
                · exact Finset.not_mem_erase y C (Finset.mem_of_mem_erase h)
              have hcW : (insert q ((C.erase y).erase v)).card + 1 ≤ cap := by
                rw [Finset.card_insert_of_not_mem
                  (fun hc => hqC
                    (Finset.mem_of_mem_erase (Finset.mem_of_mem_erase hc))),
                  Finset.card_erase_of_mem hv1, Finset.card_erase_of_mem hy]
                have h2' : 2 ≤ C.card := Finset.one_lt_card.2
                  ⟨v, hv, y, hy, fun hc => hvy hc⟩
                omega
              have := ihswap (insert q ((C.erase y).erase v)) v y hvW hyW hcW
              omega

theorem OPT_swap (cap : Nat) (σ : List Page) (U : Finset Page) (a b : Page)
    (ha : a ∉ U) (hb : b ∉ U) (hc : U.card + 1 ≤ cap) :
    OPT cap (insert a U) σ ≤ OPT cap (insert b U) σ + 1 :=
  (OPT_swap_erase cap σ).1 U a b ha hb hc

theorem OPT_erase (cap : Nat) (σ : List Page) (C : Finset Page) (y : Page)
    (hy : y ∈ C) (hc : C.card ≤ cap) :
    OPT cap (C.erase y) σ ≤ OPT cap C σ + 1 :=
  (OPT_swap_erase cap σ).2 C y hy hc

theorem occBefore_shift {a b q : Page} {σ : List Page} (hqa : q ≠ a)
    (h : OccBefore a b (q :: σ)) : OccBefore a b σ := by
  intro j hj
  rcases h (j + 1) (by simpa using hj) with ⟨i, hij, hi⟩
  cases i with
  | zero =>
    simp at hi
    exact absurd hi hqa
  | succ i' => exact ⟨i', by omega, by simpa using hi⟩

theorem occBefore_head {a b : Page} {σ : List Page} (hab : a ≠ b)
    (h : OccBefore a b (b :: σ)) : False := by
  rcases h 0 (by simp) with ⟨i, hi0, hi⟩
  obtain rfl : i = 0 := by omega
  simp at hi
  exact hab hi.symm

theorem OPT_ordered_swap (cap : Nat) :
    ∀ (σ : List Page) (T : Finset Page) (a b : Page), a ∉ T → b ∉ T →
      T.card + 1 ≤ cap → OccBefore a b σ →
      OPT cap (insert a T) σ ≤ OPT cap (insert b T) σ := by
  intro σ
  induction σ with
  | nil => intro T a b _ _ _ _; simp [OPT_nil]
  | cons q σ ih =>
    intro T a b ha hb hcard hocc
    by_cases hab : a = b
    · subst hab
      exact le_refl _
    by_cases hqT : q ∈ T
    · rw [OPT_hit (Finset.mem_insert_of_mem hqT),
        OPT_hit (Finset.mem_insert_of_mem hqT)]
      exact ih T a b ha hb hcard
        (occBefore_shift (fun hc => ha (hc ▸ hqT)) hocc)
    · by_cases hqa : q = a
      · subst hqa
        rw [OPT_hit (Finset.mem_insert_self q T)]
        have hqB : q ∉ insert b T := by
          intro hc
          rcases Finset.mem_insert.1 hc with h | h
          · exact hab h
          · exact hqT h
        by_cases h2 : (insert b T).card < cap
        · rw [OPT_fill hqB h2]
          have herase : (insert q (insert b T)).erase b = insert q T := by
            rw [Finset.erase_insert_of_ne hab, Finset.erase_insert hb]
          have h3 := OPT_erase cap σ (insert q (insert b T)) b
            (Finset.mem_insert_of_mem (Finset.mem_insert_self b T))
            (by rw [Finset.card_insert_of_not_mem hqB]; omega)
          rw [herase] at h3
          omega
        · have hneB : (insert b T).Nonempty := ⟨b, Finset.mem_insert_self b T⟩
          rw [OPT_full hqB h2 hneB]
          obtain ⟨v, hv, hve⟩ := Finset.exists_mem_eq_inf' hneB
            (fun w => OPT cap (insert q ((insert b T).erase w)) σ)
          rw [hve]
          rcases Finset.mem_insert.1 hv with rfl | hvT
          · rw [Finset.erase_insert hb]
            omega
          · have hbv : b ≠ v := fun hc => hb (hc ▸ hvT)
            rw [Finset.erase_insert_of_ne hbv]
            have hT : insert q T = insert v (insert q (T.erase v)) := by
              rw [Finset.Insert.comm, Finset.insert_erase hvT]
            rw [hT, Finset.Insert.comm q b]
            have hvW : v ∉ insert q (T.erase v) := by
              intro hc
              rcases Finset.mem_insert.1 hc with h | h
              · exact hqT (h ▸ hvT)
              · exact Finset.not_mem_erase v T h
            have hbW : b ∉ insert q (T.erase v) := by
              intro hc
              rcases Finset.mem_insert.1 hc with h | h
              · exact hab h.symm
              · exact hb (Finset.mem_of_mem_erase h)
            have hcW : (insert q (T.erase v)).card + 1 ≤ cap := by
              rw [Finset.card_insert_of_not_mem
                (fun hc => hqT (Finset.mem_of_mem_erase hc)),
                Finset.card_erase_of_mem hvT]
              have := Finset.card_pos.2 ⟨v, hvT⟩
              omega
            have := OPT_swap cap σ (insert q (T.erase v)) v b hvW hbW hcW
            omega
      · by_cases hqb : q = b
        · exfalso
          subst hqb
          exact occBefore_head (fun hc : a = q => hqa hc.symm) hocc
        · have hqA : q ∉ insert a T := by
            intro hc
            rcases Finset.mem_insert.1 hc with h | h
            · exact hqa h
            · exact hqT h
          have hqB : q ∉ insert b T := by
            intro hc
            rcases Finset.mem_insert.1 hc with h | h
            · exact hqb h
            · exact hqT h
          have hcardA : (insert a T).card = T.card + 1 :=
            Finset.card_insert_of_not_mem ha
          have hcardB : (insert b T).card = T.card + 1 :=
            Finset.card_insert_of_not_mem hb
          have hocc' : OccBefore a b σ := occBefore_shift hqa hocc
          by_cases h2 : T.card + 1 < cap
          · rw [OPT_fill hqA (by omega), OPT_fill hqB (by omega),
              Finset.Insert.comm q a, Finset.Insert.comm q b]
            have haq : a ∉ insert q T := by
              intro hc
              rcases Finset.mem_insert.1 hc with h | h
              · exact hqa h.symm
              · exact ha h
            have hbq : b ∉ insert q T := by
              intro hc
              rcases Finset.mem_insert.1 hc with h | h
              · exact hqb h.symm
              · exact hb h
            have := ih (insert q T) a b haq hbq
              (by rw [Finset.card_insert_of_not_mem hqT]; omega) hocc'
            omega
          · have hneA : (insert a T).Nonempty := ⟨a, Finset.mem_insert_self a T⟩
            have hneB : (insert b T).Nonempty := ⟨b, Finset.mem_insert_self b T⟩
            rw [OPT_full hqA (by omega) hneA, OPT_full hqB (by omega) hneB]
            obtain ⟨v, hv, hve⟩ := Finset.exists_mem_eq_inf' hneB
              (fun w => OPT cap (insert q ((insert b T).erase w)) σ)
            rw [hve]
            rcases Finset.mem_insert.1 hv with rfl | hvT
            · have hinf := Finset.inf'_le
                (fun w => OPT cap (insert q ((insert a T).erase w)) σ)
                (Finset.mem_insert_self a T)
              rw [Finset.erase_insert ha] at hinf
              rw [Finset.erase_insert hb]
              omega
            · have hinf := Finset.inf'_le
                (fun w => OPT cap (insert q ((insert a T).erase w)) σ)
                (Finset.mem_insert_of_mem hvT : v ∈ insert a T)
              have hav : a ≠ v := fun hc => ha (hc ▸ hvT)
              have hbv : b ≠ v := fun hc => hb (hc ▸ hvT)
              rw [Finset.erase_insert_of_ne hav, Finset.Insert.comm q a] at hinf
              rw [Finset.erase_insert_of_ne hbv, Finset.Insert.comm q b]
              have haW : a ∉ insert q (T.erase v) := by
                intro hc
                rcases Finset.mem_insert.1 hc with h | h
                · exact hqa h.symm
                · exact ha (Finset.mem_of_mem_erase h)
              have hbW : b ∉ insert q (T.erase v) := by
                intro hc
                rcases Finset.mem_insert.1 hc with h | h
                · exact hqb h.symm
                · exact hb (Finset.mem_of_mem_erase h)
              have hcW : (insert q (T.erase v)).card + 1 ≤ cap := by
                rw [Finset.card_insert_of_not_mem
                  (fun hc => hqT (Finset.mem_of_mem_erase hc)),
                  Finset.card_erase_of_mem hvT]
                have := Finset.card_pos.2 ⟨v, hvT⟩
                omega
              have := ih (insert q (T.erase v)) a b haW hbW hcW hocc'
              omega

theorem occBefore_of_nextUse_le {a b : Page} {σ : List Page}
    (h : specNextUse σ a ≤ specNextUse σ b) : OccBefore a b σ := by
  intro j hj
  rcases hfb : firstIdx σ b with _ | jb
  · exact absurd (List.getElem?_mem hj) (firstIdx_none_iff.1 hfb)
  · have hjb : jb ≤ j := firstIdx_min hfb j hj
    have hb2 : specNextUse σ b = (jb : ENat) := by
      unfold specNextUse
      rw [← firstIdx_eq_findIdx?, hfb]
    rcases hfa : firstIdx σ a with _ | ia
    · have ha2 : specNextUse σ a = ⊤ := by
        unfold specNextUse
        rw [← firstIdx_eq_findIdx?, hfa]
      rw [ha2, hb2] at h
      have := top_le_iff.1 h
      exact absurd this (by simp)
    · have ha2 : specNextUse σ a = (ia : ENat) := by
        unfold specNextUse
        rw [← firstIdx_eq_findIdx?, hfa]
      rw [ha2, hb2] at h
      have hia : ia ≤ jb := by exact_mod_cast h
      exact ⟨ia, by omega, firstIdx_getElem? hfa⟩

theorem toFinset_append_singleton (l : List Page) (p : Page) :
    (l ++ [p]).toFinset = insert p l.toFinset := by
  ext x
  simp [or_comm]

theorem optimal_go_le_OPT (cap : Nat) :
    ∀ (σ frames : List Page) (steps : List Step) (fc : Nat),
      ListInv cap frames →
      runGo (optimalStep cap) id frames σ = some (steps, fc) →
      fc ≤ OPT cap frames.toFinset σ := by
  intro σ
  induction σ with
  | nil =>
    intro frames steps fc _ h
    simp [runGo] at h
    omega
  | cons p σ ih =>
    intro frames steps fc hinv h
    simp only [runGo] at h
    rcases h1 : optimalStep cap frames p σ with _ | ⟨fr2, fl⟩ <;>
      rw [h1] at h <;> dsimp only at h
    · simp at h
    · rcases h2 : runGo (optimalStep cap) id fr2 σ with _ | ⟨steps', fc'⟩ <;>
        rw [h2] at h <;> dsimp only at h
      · simp at h
      · simp at h
        obtain ⟨-, rfl⟩ := h
        have hinv2 := optimalStep_pres frames p σ fr2 fl hinv h1
        have hrec := ih fr2 steps' fc' hinv2 h2
        rcases optimalStep_cases h1 with ⟨rfl, hp, rfl⟩ | ⟨rfl, hp, hlt, rfl⟩ |
          ⟨rfl, hp, hfull, v, i, hsel, hidx, rfl⟩
        · rw [OPT_hit (List.mem_toFinset.2 hp)]
          simpa using hrec
        · have hcard : frames.toFinset.card < cap := by
            rw [List.toFinset_card_of_nodup hinv.1]
            exact hlt
          rw [OPT_fill (fun hc => hp (List.mem_toFinset.1 hc)) hcard]
          rw [toFinset_append_singleton] at hrec
          have hone : (if (true : Bool) = true then (1 : Nat) else 0) = 1 := by simp
          rw [hone]
          omega
        · have hlen : frames.length = cap := by
            rcases hinv with ⟨_, hle⟩
            omega
          have hcardeq : frames.toFinset.card = cap := by
            rw [List.toFinset_card_of_nodup hinv.1]
            exact hlen
          have hcap1 : 1 ≤ cap := by
            have hi := firstIdx_lt_length hidx
            omega
          have hne : frames.toFinset.Nonempty := by
            rw [← Finset.card_pos]
            omega
          rw [OPT_full (fun hc => hp (List.mem_toFinset.1 hc)) (by omega) hne]
          obtain ⟨a0, ha0, ha0e⟩ := Finset.exists_mem_eq_inf' hne
            (fun a => OPT cap (insert p (frames.toFinset.erase a)) σ)
          rw [ha0e]
          have hi : i < frames.length := firstIdx_lt_length hidx
          have hgv : frames.get ⟨i, hi⟩ = v := firstIdx_get hidx hi
          have htf : (frames.set i p).toFinset =
              insert p (frames.toFinset.erase v) := by
            rw [toFinset_set hinv.1 hi hp, hgv]
          rw [htf] at hrec
          rcases selectVictim_eq_some hsel with ⟨hff, hvmem⟩
          obtain ⟨jx, hgetx, hmax, hfirstx⟩ := hff
          have hone : (if (true : Bool) = true then (1 : Nat) else 0) = 1 := by simp
          rw [hone]
          by_cases hva : v = a0
          · subst hva
            omega
          · have ha0mem : a0 ∈ frames := List.mem_toFinset.1 ha0
            have hvfin : v ∈ frames.toFinset := List.mem_toFinset.2 hvmem
            have ha0v : a0 ∈ frames.toFinset.erase v :=
              Finset.mem_erase.2 ⟨fun hc => hva hc.symm, ha0⟩
            have hva0 : v ∈ frames.toFinset.erase a0 :=
              Finset.mem_erase.2 ⟨hva, hvfin⟩
            have hpfin : p ∉ frames.toFinset := fun hc => hp (List.mem_toFinset.1 hc)
            have e1 : insert p (frames.toFinset.erase v) =
                insert a0 (insert p ((frames.toFinset.erase v).erase a0)) := by
              rw [Finset.Insert.comm, Finset.insert_erase ha0v]
            have e2 : insert p (frames.toFinset.erase a0) =
                insert v (insert p ((frames.toFinset.erase v).erase a0)) := by
              rw [Finset.Insert.comm, ← Finset.erase_right_comm,
                Finset.insert_erase hva0]
            have haW : a0 ∉ insert p ((frames.toFinset.erase v).erase a0) := by
              intro hc
              rcases Finset.mem_insert.1 hc with hh | hh
              · exact hpfin (hh ▸ ha0)
              · exact Finset.not_mem_erase a0 _ hh
            have hvW : v ∉ insert p ((frames.toFinset.erase v).erase a0) := by
              intro hc
              rcases Finset.mem_insert.1 hc with hh | hh
              · exact hpfin (hh ▸ hvfin)
              · exact Finset.not_mem_erase v _ (Finset.mem_of_mem_erase hh)
            have hcW : (insert p ((frames.toFinset.erase v).erase a0)).card + 1 ≤
                cap := by
              rw [Finset.card_insert_of_not_mem
                (fun hc => hpfin
                  (Finset.mem_of_mem_erase (Finset.mem_of_mem_erase hc))),
                Finset.card_erase_of_mem ha0v, Finset.card_erase_of_mem hvfin]
              have h2' : 2 ≤ frames.toFinset.card :=
                Finset.one_lt_card.2 ⟨v, hvfin, a0, ha0, hva⟩
              omega
            have hocc : OccBefore a0 v σ :=
              occBefore_of_nextUse_le (hmax a0 ha0mem)
            have hL2 := OPT_ordered_swap cap σ
              (insert p ((frames.toFinset.erase v).erase a0)) a0 v haW hvW hcW hocc
            rw [← e1, ← e2] at hL2
            omega

theorem toFinset_cons_erase {q : Page} {t : List Page} (hq : q ∉ t) :
    ((q :: t).toFinset).erase q = t.toFinset := by
  ext x
  simp only [Finset.mem_erase, List.mem_toFinset, List.mem_cons]
  constructor
  · rintro ⟨h1, h2 | h2⟩
    · exact absurd h2 h1
    · exact h2
  · intro hx
    exact ⟨fun hc => hq (hc ▸ hx), Or.inr hx⟩

/-- Any demand-paging policy run pays at least the optimal fault count:
abstractly, a step either hits (fault flag false, same resident set),
fills (new page inserted), or evicts one resident page in favor of the
new one. -/
theorem OPT_le_runGo {σT : Type} (cap : Nat)
    (step : σT → Page → List Page → Option (σT × Bool)) (view : σT → List Page)
    (P : σT → Prop)
    (hP : ∀ s, P s → (view s).Nodup ∧ (view s).length ≤ cap)
    (hbeh : ∀ s p r s2 f, P s → step s p r = some (s2, f) → P s2 ∧
      ((f = false ∧ p ∈ view s ∧ (view s2).toFinset = (view s).toFinset) ∨
       (f = true ∧ p ∉ view s ∧ (view s).length < cap ∧
         (view s2).toFinset = insert p (view s).toFinset) ∨
       (f = true ∧ p ∉ view s ∧ ¬ (view s).length < cap ∧
         ∃ v, v ∈ view s ∧
           (view s2).toFinset = insert p ((view s).toFinset.erase v)))) :
    ∀ (l : List Page) (s : σT) (steps : List Step) (fc : Nat), P s →
      runGo step view s l = some (steps, fc) →
      OPT cap (view s).toFinset l ≤ fc := by
  intro l
  induction l with
  | nil =>
    intro s steps fc _ h
    simp [runGo] at h
    rw [OPT_nil]
    omega
  | cons p l ih =>
    intro s steps fc hs h
    simp only [runGo] at h
    rcases h1 : step s p l with _ | ⟨s2, fl⟩ <;> rw [h1] at h <;> dsimp only at h
    · simp at h
    · rcases h2 : runGo step view s2 l with _ | ⟨steps', fc'⟩ <;>
        rw [h2] at h <;> dsimp only at h
      · simp at h
      · simp at h
        obtain ⟨-, rfl⟩ := h
        obtain ⟨hs2, hcase⟩ := hbeh s p l s2 fl hs h1
        have hrec := ih s2 steps' fc' hs2 h2
        obtain ⟨hnd, hlen⟩ := hP s hs
        rcases hcase with ⟨rfl, hp, hset⟩ | ⟨rfl, hp, hlt, hset⟩ |
          ⟨rfl, hp, hfull, v, hv, hset⟩
        · rw [OPT_hit (List.mem_toFinset.2 hp)]
          rw [hset] at hrec
          simpa using hrec
        · have hcard : (view s).toFinset.card < cap := by
            rw [List.toFinset_card_of_nodup hnd]
            exact hlt
          rw [OPT_fill (fun hc => hp (List.mem_toFinset.1 hc)) hcard]
          rw [hset] at hrec
          have hone : (if (true : Bool) = true then (1 : Nat) else 0) = 1 := by
            simp
          rw [hone]
          omega
        · have hne : (view s).toFinset.Nonempty := ⟨v, List.mem_toFinset.2 hv⟩
          rw [OPT_full (fun hc => hp (List.mem_toFinset.1 hc))
            (by rw [List.toFinset_card_of_nodup hnd]; omega) hne]
          have hinf := Finset.inf'_le
            (fun a => OPT cap (insert p ((view s).toFinset.erase a)) l)
            (List.mem_toFinset.2 hv)
          rw [hset] at hrec
          have hone : (if (true : Bool) = true then (1 : Nat) else 0) = 1 := by
            simp
          rw [hone]
          omega

theorem fifoStep_beh (cap : Nat) :
    ∀ s p r s2 f, ListInv cap s → fifoStep cap s p r = some (s2, f) →
      ListInv cap s2 ∧
      ((f = false ∧ p ∈ id s ∧ (id s2 : List Page).toFinset = (id s : List Page).toFinset) ∨
       (f = true ∧ p ∉ id s ∧ (id s : List Page).length < cap ∧
         (id s2 : List Page).toFinset = insert p (id s : List Page).toFinset) ∨
       (f = true ∧ p ∉ id s ∧ ¬ (id s : List Page).length < cap ∧
         ∃ v, v ∈ id s ∧
           (id s2 : List Page).toFinset = insert p ((id s : List Page).toFinset.erase v))) := by
  intro s p r s2 f hinv h
  refine ⟨fifoStep_pres s p r s2 f hinv h, ?_⟩
  rcases fifoStep_cases h with ⟨hf, hp, rfl⟩ | ⟨hf, hp, hlt, rfl⟩ |
    ⟨hf, hp, hfull, q, t, rfl, rfl⟩
  · exact Or.inl ⟨hf, hp, rfl⟩
  · exact Or.inr (Or.inl ⟨hf, hp, hlt, toFinset_append_singleton s p⟩)
  · refine Or.inr (Or.inr ⟨hf, hp, hfull, q, List.mem_cons_self q t, ?_⟩)
    show (t ++ [p]).toFinset = insert p (((q :: t).toFinset).erase q)
    rw [toFinset_append_singleton,
      toFinset_cons_erase (List.nodup_cons.1 hinv.1).1]

theorem lruStep_beh (cap : Nat) :
    ∀ s p r s2 f, ListInv cap s → lruStep cap s p r = some (s2, f) →
      ListInv cap s2 ∧
      ((f = false ∧ p ∈ id s ∧ (id s2 : List Page).toFinset = (id s : List Page).toFinset) ∨
       (f = true ∧ p ∉ id s ∧ (id s : List Page).length < cap ∧
         (id s2 : List Page).toFinset = insert p (id s : List Page).toFinset) ∨
       (f = true ∧ p ∉ id s ∧ ¬ (id s : List Page).length < cap ∧
         ∃ v, v ∈ id s ∧
           (id s2 : List Page).toFinset = insert p ((id s : List Page).toFinset.erase v))) := by
  intro s p r s2 f hinv h
  refine ⟨lruStep_pres s p r s2 f hinv h, ?_⟩
  rcases lruStep_cases h with ⟨hf, hp, rfl⟩ | ⟨hf, hp, hlt, rfl⟩ |
    ⟨hf, hp, hfull, q, t, rfl, rfl⟩
  · refine Or.inl ⟨hf, hp, ?_⟩
    ext x
    simp only [List.mem_toFinset]
    exact mem_erase_append_self hp x
  · exact Or.inr (Or.inl ⟨hf, hp, hlt, toFinset_append_singleton s p⟩)
  · refine Or.inr (Or.inr ⟨hf, hp, hfull, q, List.mem_cons_self q t, ?_⟩)
    show (t ++ [p]).toFinset = insert p (((q :: t).toFinset).erase q)
    rw [toFinset_append_singleton,
      toFinset_cons_erase (List.nodup_cons.1 hinv.1).1]

theorem scStep_beh (cap : Nat) (hcap : 1 ≤ cap) :
    ∀ s p r s2 f, SCInv cap s → scStep cap s p r = some (s2, f) →
      SCInv cap s2 ∧
      ((f = false ∧ p ∈ s.frames ∧ s2.frames.toFinset = s.frames.toFinset) ∨
       (f = true ∧ p ∉ s.frames ∧ s.frames.length < cap ∧
         s2.frames.toFinset = insert p s.frames.toFinset) ∨
       (f = true ∧ p ∉ s.frames ∧ ¬ s.frames.length < cap ∧
         ∃ v, v ∈ s.frames ∧
           s2.frames.toFinset = insert p (s.frames.toFinset.erase v))) := by
  intro s p r s2 f hinv h
  refine ⟨scStep_pres hcap s p r s2 f hinv h, ?_⟩
  rcases scStep_cases h with ⟨hf, hp, i, hidx, rfl⟩ | ⟨hf, hp, hlt, rfl⟩ |
    ⟨hf, hp, hfull, bits2, ptr2, hsw, rfl⟩
  · exact Or.inl ⟨hf, hp, rfl⟩
  · exact Or.inr (Or.inl ⟨hf, hp, hlt, toFinset_append_singleton s.frames p⟩)
  · rcases hinv with ⟨hn, hle, hbits, hptr⟩
    have hbcap : s.ref_bits.length = cap := by omega
    have hpcap : s.pointer < cap := by
      rcases hptr with h0 | ⟨_, hlt'⟩
      · omega
      · exact hlt'
    rcases sweep_success hbcap hpcap with ⟨bits2', ptr2', hsw', _, hptr2'⟩
    rw [hsw] at hsw'
    obtain ⟨rfl, rfl⟩ : bits2 = bits2' ∧ ptr2 = ptr2' := by simpa using hsw'
    have hp2 : ptr2 < s.frames.length := by omega
    refine Or.inr (Or.inr ⟨hf, hp, hfull, s.frames.get ⟨ptr2, hp2⟩,
      List.get_mem s.frames ptr2 hp2, ?_⟩)
    exact toFinset_set hn hp2 hp

theorem clockStep_beh (cap : Nat) (hcap : 1 ≤ cap) :
    ∀ s p r s2 f, SCInv cap s → clockStep cap s p r = some (s2, f) →
      SCInv cap s2 ∧
      ((f = false ∧ p ∈ s.frames ∧ s2.frames.toFinset = s.frames.toFinset) ∨
       (f = true ∧ p ∉ s.frames ∧ s.frames.length < cap ∧
         s2.frames.toFinset = insert p s.frames.toFinset) ∨
       (f = true ∧ p ∉ s.frames ∧ ¬ s.frames.length < cap ∧
         ∃ v, v ∈ s.frames ∧
           s2.frames.toFinset = insert p (s.frames.toFinset.erase v))) := by
  intro s p r s2 f hinv h
  rw [← scStep_eq_clockStep s p r hinv] at h
  exact scStep_beh cap hcap s p r s2 f hinv h

theorem optimal_faults_le_OPT {seq : List Page} {cap : Nat} {r : RunResult}
    (h : optimal seq cap = some r) : r.faults ≤ OPT cap ∅ seq := by
  have := optimal_go_le_OPT cap seq [] r.steps r.faults listInv_nil
    (optimal_some h)
  simpa using this

theorem OPT_le_fifo {seq : List Page} {cap : Nat} {r : RunResult}
    (h : fifo seq cap = some r) : OPT cap ∅ seq ≤ r.faults := by
  have := OPT_le_runGo cap (fifoStep cap) id (ListInv cap)
    (fun s hs => ⟨hs.1, hs.2⟩) (fifoStep_beh cap) seq [] r.steps r.faults
    listInv_nil (fifo_some h)
  simpa using this

theorem OPT_le_lru {seq : List Page} {cap : Nat} {r : RunResult}
    (h : lru seq cap = some r) : OPT cap ∅ seq ≤ r.faults := by
  have := OPT_le_runGo cap (lruStep cap) id (ListInv cap)
    (fun s hs => ⟨hs.1, hs.2⟩) (lruStep_beh cap) seq [] r.steps r.faults
    listInv_nil (lru_some h)
  simpa using this

theorem OPT_le_second_chance {seq : List Page} {cap : Nat} {r : RunResult}
    (hcap : 1 ≤ cap) (h : second_chance seq cap = some r) :
    OPT cap ∅ seq ≤ r.faults := by
  have := OPT_le_runGo cap (scStep cap) SCState.frames (SCInv cap)
    (fun s hs => ⟨hs.1, hs.2.1⟩) (scStep_beh cap hcap) seq ⟨[], [], 0⟩
    r.steps r.faults scInv_init (second_chance_some h)
  simpa using this

theorem OPT_le_clock {seq : List Page} {cap : Nat} {r : RunResult}
    (hcap : 1 ≤ cap) (h : clock seq cap = some r) :
    OPT cap ∅ seq ≤ r.faults := by
  have := OPT_le_runGo cap (clockStep cap) SCState.frames (SCInv cap)
    (fun s hs => ⟨hs.1, hs.2.1⟩) (clockStep_beh cap hcap) seq ⟨[], [], 0⟩
    r.steps r.faults scInv_init (clock_some h)
  simpa using this

/-- C2: for every reference sequence and capacity ≥ 1, the fault count of
`optimal` is at most the fault count of each of `fifo`, `lru`,
`second_chance` and `clock` on the same input (Belady optimality: the
farthest-next-use eviction achieves the minimum demand-paging fault count,
and every other policy is a demand-paging policy). -/
theorem claim_C2 :
    ∀ (seq : List Page) (cap : Nat), 1 ≤ cap →
      ∀ rO rF rL rS rC, optimal seq cap = some rO → fifo seq cap = some rF →
        lru seq cap = some rL → second_chance seq cap = some rS →
        clock seq cap = some rC →
        rO.faults ≤ rF.faults ∧ rO.faults ≤ rL.faults ∧
        rO.faults ≤ rS.faults ∧ rO.faults ≤ rC.faults := by
  intro seq cap hcap rO rF rL rS rC hO hF hL hS hC
  have h0 := optimal_faults_le_OPT hO
  exact ⟨le_trans h0 (OPT_le_fifo hF), le_trans h0 (OPT_le_lru hL),
    le_trans h0 (OPT_le_second_chance hcap hS),
    le_trans h0 (OPT_le_clock hcap hC)⟩

/-- Witness for C2: all five policies fault three times on `[1, 2, 1]`
with a single frame, so the optimality inequalities hold with equality. -/
theorem claim_C2_witness :
    (1 : Nat) ≤ 1 ∧ ((3 : Nat) ≤ 3 ∧ (3 : Nat) ≤ 3 ∧ (3 : Nat) ≤ 3 ∧
      (3 : Nat) ≤ 3) :=
  ⟨le_refl 1,
    claim_C2 [1, 2, 1] 1 (le_refl 1)
      ⟨3, [⟨1, [], [1], true⟩, ⟨2, [1], [2], true⟩, ⟨1, [2], [1], true⟩]⟩
      ⟨3, [⟨1, [], [1], true⟩, ⟨2, [1], [2], true⟩, ⟨1, [2], [1], true⟩]⟩
      ⟨3, [⟨1, [], [1], true⟩, ⟨2, [1], [2], true⟩, ⟨1, [2], [1], true⟩]⟩
      ⟨3, [⟨1, [], [1], true⟩, ⟨2, [1], [2], true⟩, ⟨1, [2], [1], true⟩]⟩
      ⟨3, [⟨1, [], [1], true⟩, ⟨2, [1], [2], true⟩, ⟨1, [2], [1], true⟩]⟩
      rfl rfl rfl rfl rfl⟩

end PageRepl
